import Mathlib

/-!
Verification of the algorithm trace generators of the Algorithm-Visualizer
repository (sorting, searching, graph pathfinding, linked-list and tree
builders), shallowly embedded from the JavaScript sources.

Conventions of the embedding:
* JS numbers are embedded as `ℤ` (numeric precision beyond integer
  arithmetic is out of scope per the design document).
* JS arrays are embedded as `List ℤ`; an indexed read `arr[i]` becomes
  `List.getD arr i 0` (every read performed by the algorithms below is in
  bounds on the runs considered, so the default is never observed), and an
  in-place write `arr[i] = x` becomes the functional update `List.set`.
* The `text` narration field of animation steps is presentation-only and
  is elided; the `type` tag and the numeric payload (`indices`) are kept.
* Loops become structural recursion on the (source-determined) iteration
  count; `while` loops whose termination is data-dependent take an explicit
  fuel argument that dominates the number of iterations of the runs
  considered.
-/

/-- The sort-order flag (the `sortOrder` state of `SortingVisualizer.js`,
either `'ascending'` or `'descending'`). -/
inductive SortOrder where
  | ascending
  | descending
deriving DecidableEq, Repr

/-- The comparator `shouldSwap` of `bubbleSort` in `SortingVisualizer.js`
(`sortOrder === 'ascending' ? a > b : a < b`).  `mergeSort` defines the
same comparator under the same name, and `selectionSort`
(`shouldUpdateMinIndex`), `insertionSort` (`shouldShift`) and `heapSort`
(`shouldHeapify`) define literally identical ones; all are embedded by
this single function. -/
def shouldSwap (o : SortOrder) (a b : ℤ) : Bool :=
  match o with
  | .ascending => a > b
  | .descending => a < b

/-- The element order corresponding to an order flag: `(· ≤ ·)` for
ascending, `(· ≥ ·)` for descending.  `shouldSwap o a b` is exactly the
failure of `orel o a b`. -/
def orel : SortOrder → ℤ → ℤ → Prop
  | .ascending => fun a b => a ≤ b
  | .descending => fun a b => b ≤ a

instance (o : SortOrder) : DecidableRel (orel o) :=
  match o with
  | .ascending => fun a b => inferInstanceAs (Decidable (a ≤ b))
  | .descending => fun a b => inferInstanceAs (Decidable (b ≤ a))

theorem orel_iff_not_shouldSwap (o : SortOrder) (a b : ℤ) :
    orel o a b ↔ shouldSwap o a b = false := by
  cases o <;> simp [orel, shouldSwap]

theorem orel_of_shouldSwap {o : SortOrder} {a b : ℤ}
    (h : shouldSwap o a b = true) : orel o b a := by
  cases o <;> simp [shouldSwap] at h <;> simp [orel] <;> omega

theorem orel_total (o : SortOrder) (a b : ℤ) : orel o a b ∨ orel o b a := by
  cases o <;> simp [orel] <;> omega

theorem orel_trans {o : SortOrder} {a b c : ℤ} (h₁ : orel o a b)
    (h₂ : orel o b c) : orel o a c := by
  cases o <;> simp [orel] at * <;> omega

theorem orel_antisymm {o : SortOrder} {a b : ℤ} (h₁ : orel o a b)
    (h₂ : orel o b a) : a = b := by
  cases o <;> simp [orel] at * <;> omega

instance (o : SortOrder) : IsTotal ℤ (orel o) := ⟨orel_total o⟩

instance (o : SortOrder) : IsTrans ℤ (orel o) :=
  ⟨fun _ _ _ => orel_trans⟩

instance (o : SortOrder) : IsAntisymm ℤ (orel o) :=
  ⟨fun _ _ => orel_antisymm⟩

/-- The tag of a sorting animation step (the `type` field pushed by the six
sorting generators of `SortingVisualizer.js`). -/
inductive SKind where
  | compare
  | swap
  | reset
  | final_position
  | mark_min
  | mark_min_change
  | mark_key
  | shift
  | place
  | reset_key
  | mark_pivot
  | reset_compare
  | overwrite
deriving DecidableEq, Repr

/-- One sorting animation step: `{type, indices}` (the narration `text` is
elided).  For `overwrite` steps the source stores `[index, value]` in
`indices`, hence the entries are integers rather than indices. -/
structure SStep where
  kind : SKind
  indices : List ℤ
deriving DecidableEq, Repr

/-- The `{animations, finalArray}` record returned by every sorting
generator. -/
structure SortResult where
  animations : List SStep
  finalArray : List ℤ
deriving Repr

/-- The JS idiom `[arr[i], arr[j]] = [arr[j], arr[i]]`: both reads happen
before either write. -/
def swapList (l : List ℤ) (i j : Nat) : List ℤ :=
  (l.set i (l.getD j 0)).set j (l.getD i 0)

theorem swapList_length (l : List ℤ) (i j : Nat) :
    (swapList l i j).length = l.length := by
  simp [swapList]

theorem set_append_right (pre l : List ℤ) (k : Nat) (x : ℤ) :
    (pre ++ l).set (pre.length + k) x = pre ++ l.set k x := by
  induction pre with
  | nil => simp
  | cons a pre ih =>
      simp only [List.cons_append, List.length_cons]
      have : a :: pre ++ l = a :: (pre ++ l) := rfl
      rw [show pre.length + 1 + k = (pre.length + k) + 1 by omega]
      simp [List.set, ih]

theorem getD_append_cons (pre suf : List ℤ) (a : ℤ) :
    (pre ++ a :: suf).getD pre.length 0 = a := by
  rw [List.getD_append_right _ _ _ _ (Nat.le_refl _)]
  simp

theorem getD_append_cons_add (pre suf : List ℤ) (a : ℤ) (k : Nat) :
    (pre ++ a :: suf).getD (pre.length + k) 0 = (a :: suf).getD k 0 := by
  rw [List.getD_append_right _ _ _ _ (Nat.le_add_right _ _)]
  simp

/-- Swapping the two distinguished positions of a three-way split. -/
theorem swapList_decomp (pre mid suf : List ℤ) (a b : ℤ) :
    swapList (pre ++ a :: (mid ++ b :: suf)) pre.length
      (pre.length + (1 + mid.length)) =
      pre ++ b :: (mid ++ a :: suf) := by
  have hget_j : (pre ++ a :: (mid ++ b :: suf)).getD
      (pre.length + (1 + mid.length)) 0 = b := by
    rw [getD_append_cons_add, show 1 + mid.length = mid.length + 1 by omega,
      List.getD_cons_succ]
    exact getD_append_cons mid suf b
  have hget_i : (pre ++ a :: (mid ++ b :: suf)).getD pre.length 0 = a :=
    getD_append_cons _ _ _
  unfold swapList
  rw [hget_j, hget_i]
  have h1 : (pre ++ a :: (mid ++ b :: suf)).set pre.length b =
      pre ++ b :: (mid ++ b :: suf) := by
    have h := set_append_right pre (a :: (mid ++ b :: suf)) 0 b
    simp only [Nat.add_zero] at h
    rw [h, List.set_cons_zero]
  rw [h1]
  have h2 : (pre ++ b :: (mid ++ b :: suf)).set
      (pre.length + (1 + mid.length)) a =
      pre ++ b :: (mid ++ a :: suf) := by
    rw [set_append_right pre (b :: (mid ++ b :: suf)) (1 + mid.length) a]
    congr 1
    rw [show 1 + mid.length = mid.length + 1 by omega, List.set_cons_succ]
    congr 1
    have h := set_append_right mid (b :: suf) 0 a
    simp only [Nat.add_zero] at h
    rw [h, List.set_cons_zero]
  rw [h2]

theorem perm_swap_middle (pre mid suf : List ℤ) (a b : ℤ) :
    (pre ++ b :: (mid ++ a :: suf)).Perm (pre ++ a :: (mid ++ b :: suf)) := by
  rw [List.perm_iff_count]
  intro x
  simp [List.count_append, List.count_cons]
  omega

/-- The canonical sort of a sequence under an order flag. -/
def canonicalSort (o : SortOrder) (l : List ℤ) : List ℤ :=
  List.insertionSort (orel o) l

theorem canonicalSort_sorted (o : SortOrder) (l : List ℤ) :
    List.Sorted (orel o) (canonicalSort o l) :=
  List.sorted_insertionSort (orel o) l

theorem canonicalSort_perm (o : SortOrder) (l : List ℤ) :
    (canonicalSort o l).Perm l :=
  List.perm_insertionSort (orel o) l

/-- A sorted permutation of `l` is the canonical sort of `l`: sortedness
together with permutation pins the final artifact down uniquely. -/
theorem eq_canonicalSort_of_sorted_of_perm {o : SortOrder} {l l' : List ℤ}
    (hperm : l'.Perm l) (hsort : List.Sorted (orel o) l') :
    l' = canonicalSort o l :=
  List.eq_of_perm_of_sorted (hperm.trans (canonicalSort_perm o l).symm)
    hsort (canonicalSort_sorted o l)

theorem orel_refl (o : SortOrder) (a : ℤ) : orel o a a := by
  cases o <;> simp [orel]

/-! ### Bubble sort (`bubbleSort`, `SortingVisualizer.js` lines 72-110)

The inner `for (j = 0; j < arr.length - i - 1; j++)` loop is embedded as
`bubbleInner` recursing on the number `steps` of remaining iterations; the
outer `for (i = 0; i < arr.length - 1; i++)` loop as `bubbleOuter`
recursing on the remaining `passes`. -/


def bubbleInner (o : SortOrder) :
    Nat → Nat → List ℤ → List SStep → List ℤ × List SStep
  | 0, _, arr, anims => (arr, anims)
  | steps + 1, j, arr, anims =>
      if shouldSwap o (arr.getD j 0) (arr.getD (j + 1) 0) then
        bubbleInner o steps (j + 1) (swapList arr j (j + 1))
          (anims ++ [⟨.compare, [(j : ℤ), (j : ℤ) + 1]⟩] ++
            [⟨.swap, [(j : ℤ), (j : ℤ) + 1]⟩] ++
            [⟨.reset, [(j : ℤ), (j : ℤ) + 1]⟩])
      else
        bubbleInner o steps (j + 1) arr
          (anims ++ [⟨.compare, [(j : ℤ), (j : ℤ) + 1]⟩] ++
            [⟨.reset, [(j : ℤ), (j : ℤ) + 1]⟩])

def bubbleOuter (o : SortOrder) (n : Nat) :
    Nat → Nat → List ℤ → List SStep → List ℤ × List SStep
  | 0, _, arr, anims => (arr, anims)
  | passes + 1, i, arr, anims =>
      let r := bubbleInner o (n - i - 1) 0 arr anims
      bubbleOuter o n passes (i + 1) r.1
        (r.2 ++ [⟨.final_position, [((n - 1 - i : Nat) : ℤ)]⟩])

def bubbleSort (array : List ℤ) (o : SortOrder) : SortResult :=
  let n := array.length
  let r := bubbleOuter o n (n - 1) 0 array []
  ⟨r.2 ++ [⟨.final_position, [0]⟩], r.1⟩

/-- One structural bubble pass: the effect of the inner loop on the active
prefix. -/
def onePass (o : SortOrder) : List ℤ → List ℤ
  | [] => []
  | [a] => [a]
  | a :: b :: t =>
      if shouldSwap o a b then b :: onePass o (a :: t)
      else a :: onePass o (b :: t)

theorem onePass_nil (o : SortOrder) : onePass o [] = [] := by
  simp [onePass]

theorem onePass_singleton (o : SortOrder) (a : ℤ) : onePass o [a] = [a] := by
  simp [onePass]

theorem onePass_cons_cons (o : SortOrder) (a b : ℤ) (t : List ℤ) :
    onePass o (a :: b :: t) =
      if shouldSwap o a b then b :: onePass o (a :: t)
      else a :: onePass o (b :: t) := by
  simp [onePass]

theorem onePass_length (o : SortOrder) :
    ∀ l : List ℤ, (onePass o l).length = l.length
  | [] => by simp [onePass_nil]
  | [a] => by simp [onePass_singleton]
  | a :: b :: t => by
      rw [onePass_cons_cons]
      by_cases h : shouldSwap o a b <;>
        simp [h, onePass_length o (a :: t), onePass_length o (b :: t)]

theorem onePass_perm (o : SortOrder) :
    ∀ l : List ℤ, (onePass o l).Perm l
  | [] => by simp [onePass_nil]
  | [a] => by simp [onePass_singleton]
  | a :: b :: t => by
      rw [onePass_cons_cons]
      by_cases h : shouldSwap o a b
      · simp only [h, if_true]
        exact ((onePass_perm o (a :: t)).cons b).trans (List.Perm.swap a b t)
      · simp only [h, if_false]
        exact (onePass_perm o (b :: t)).cons a

theorem onePass_max (o : SortOrder) :
    ∀ l : List ℤ, l ≠ [] →
      ∃ f m, onePass o l = f ++ [m] ∧ ∀ x ∈ l, orel o x m
  | [], h => absurd rfl h
  | [a], _ => by
      refine ⟨[], a, by simp [onePass_singleton], ?_⟩
      intro x hx
      simp only [List.mem_singleton] at hx
      subst hx
      exact orel_refl o x
  | a :: b :: t, _ => by
      rw [onePass_cons_cons]
      by_cases h : shouldSwap o a b
      · obtain ⟨f, m, hEq, hBound⟩ := onePass_max o (a :: t) (by simp)
        refine ⟨b :: f, m, by simp [h, hEq], ?_⟩
        intro x hx
        rcases List.mem_cons.mp hx with rfl | hx
        · exact hBound x (List.mem_cons_self _ _)
        rcases List.mem_cons.mp hx with rfl | hx
        · exact orel_trans (orel_of_shouldSwap h) (hBound a (List.mem_cons_self _ _))
        · exact hBound x (List.mem_cons_of_mem _ hx)
      · obtain ⟨f, m, hEq, hBound⟩ := onePass_max o (b :: t) (by simp)
        refine ⟨a :: f, m, by simp [h, hEq], ?_⟩
        intro x hx
        rcases List.mem_cons.mp hx with rfl | hx
        · exact orel_trans
            ((orel_iff_not_shouldSwap o x b).mpr (by simpa using h))
            (hBound b (List.mem_cons_self _ _))
        · exact hBound x hx

/-- The inner loop realizes `onePass` on the window it scans. -/
theorem bubbleInner_arr (o : SortOrder) :
    ∀ (steps : Nat) (pre mid suf : List ℤ) (anims : List SStep),
      mid.length = steps + 1 →
      (bubbleInner o steps pre.length (pre ++ (mid ++ suf)) anims).1 =
        pre ++ (onePass o mid ++ suf) := by
  intro steps
  induction steps with
  | zero =>
      intro pre mid suf anims hlen
      match mid, hlen with
      | [a], _ => simp [bubbleInner, onePass_singleton]
  | succ steps ih =>
      intro pre mid suf anims hlen
      match mid, hlen with
      | a :: b :: t, hlen =>
        have ht : t.length = steps := by simpa using hlen
        simp only [List.cons_append, onePass_cons_cons]
        have hget₁ : (pre ++ a :: (b :: (t ++ suf))).getD pre.length 0 = a :=
          getD_append_cons pre _ a
        have hget₂ : (pre ++ a :: (b :: (t ++ suf))).getD (pre.length + 1) 0 = b := by
          rw [getD_append_cons_add pre _ a 1]
          rfl
        rw [bubbleInner]
        rw [hget₁, hget₂]
        by_cases h : shouldSwap o a b
        · rw [if_pos h, if_pos h]
          have hsw : swapList (pre ++ a :: (b :: (t ++ suf))) pre.length (pre.length + 1) =
              pre ++ b :: (a :: (t ++ suf)) := by
            have hd := swapList_decomp pre [] (t ++ suf) a b
            simpa using hd
          rw [hsw]
          have harr : pre ++ b :: (a :: (t ++ suf)) = (pre ++ [b]) ++ ((a :: t) ++ suf) := by
            simp
          have hj : pre.length + 1 = (pre ++ [b]).length := by simp
          rw [harr, hj, ih (pre ++ [b]) (a :: t) suf _ (by simpa using ht)]
          simp
        · rw [if_neg h, if_neg h]
          have harr : pre ++ a :: (b :: (t ++ suf)) = (pre ++ [a]) ++ ((b :: t) ++ suf) := by
            simp
          have hj : pre.length + 1 = (pre ++ [a]).length := by simp
          rw [harr, hj, ih (pre ++ [a]) (b :: t) suf _ (by simpa using ht)]
          simp

theorem bubbleOuter_sorted_perm (o : SortOrder) (n : Nat) :
    ∀ (passes i : Nat) (front back : List ℤ) (anims : List SStep),
      front.length = passes + 1 →
      List.Sorted (orel o) back →
      (∀ x ∈ front, ∀ y ∈ back, orel o x y) →
      n - i - 1 = passes →
      List.Sorted (orel o) ((bubbleOuter o n passes i (front ++ back) anims).1) ∧
        ((bubbleOuter o n passes i (front ++ back) anims).1).Perm (front ++ back) := by
  intro passes
  induction passes with
  | zero =>
      intro i front back anims hlen hback hbound _
      match front, hlen with
      | [a], _ =>
        constructor
        · rw [bubbleOuter]
          exact List.sorted_cons.mpr ⟨fun y hy => hbound a (by simp) y hy, hback⟩
        · rw [bubbleOuter]
  | succ passes ih =>
      intro i front back anims hlen hback hbound hsteps
      rw [bubbleOuter]
      have hfr : front ≠ [] := by
        intro hc
        rw [hc] at hlen
        simp at hlen
      have hinner : (bubbleInner o (n - i - 1) 0 (front ++ back) anims).1 =
          onePass o front ++ back := by
        have h := bubbleInner_arr o (n - i - 1) [] front back anims
          (by rw [hsteps, hlen])
        simpa using h
      obtain ⟨f, m, hfm, hmax⟩ := onePass_max o front hfr
      have hflen : f.length = passes + 1 := by
        have h1 := onePass_length o front
        rw [hfm] at h1
        simp at h1
        omega
      have hmemf : ∀ x ∈ f, x ∈ front := by
        intro x hx
        exact (onePass_perm o front).subset (by rw [hfm]; exact List.mem_append_left _ hx)
      have hmemm : m ∈ front :=
        (onePass_perm o front).subset (by rw [hfm]; simp)
      have harr : onePass o front ++ back = f ++ (m :: back) := by
        rw [hfm]
        simp
      have hrec := ih (i + 1) f (m :: back)
        ((bubbleInner o (n - i - 1) 0 (front ++ back) anims).2 ++
          [⟨.final_position, [((n - 1 - i : Nat) : ℤ)]⟩])
        hflen
        (List.sorted_cons.mpr ⟨fun y hy => hbound m hmemm y hy, hback⟩)
        (by
          intro x hx y hy
          rcases List.mem_cons.mp hy with rfl | hy
          · exact hmax x (hmemf x hx)
          · exact hbound x (hmemf x hx) y hy)
        (by omega)
      rw [hinner, harr]
      refine ⟨hrec.1, hrec.2.trans ?_⟩
      have he : f ++ (m :: back) = onePass o front ++ back := by
        rw [hfm]
        simp
      rw [he]
      exact (onePass_perm o front).append_right back

theorem bubbleSort_sorted_perm (l : List ℤ) (o : SortOrder) :
    List.Sorted (orel o) (bubbleSort l o).finalArray ∧
      (bubbleSort l o).finalArray.Perm l := by
  match l with
  | [] =>
      constructor <;> simp [bubbleSort, bubbleOuter]
  | a :: t =>
      have h := bubbleOuter_sorted_perm o (a :: t).length t.length 0 (a :: t) [] []
        (by simp) (by simp) (by simp) (by simp)
      simpa [bubbleSort] using h

theorem bubbleSort_finalArray (l : List ℤ) (o : SortOrder) :
    (bubbleSort l o).finalArray = canonicalSort o l :=
  eq_canonicalSort_of_sorted_of_perm (bubbleSort_sorted_perm l o).2
    (bubbleSort_sorted_perm l o).1

/-! ### Bubble sort trace: finalized indices are never touched again -/

/-- Relation between two steps of a trace: if the earlier step is a
`final_position` marker naming index `x`, no later comparison or swap may
mention `x`. -/
def noTouchAfterFinal (ev evL : SStep) : Prop :=
  ev.kind = SKind.final_position →
    (evL.kind = SKind.compare ∨ evL.kind = SKind.swap) →
    ∀ x ∈ ev.indices, x ∉ evL.indices

theorem bubbleInner_anims (o : SortOrder) :
    ∀ (steps j : Nat) (arr : List ℤ) (anims : List SStep),
      ∃ Δ, (bubbleInner o steps j arr anims).2 = anims ++ Δ ∧
        ∀ ev ∈ Δ,
          (ev.kind = SKind.compare ∨ ev.kind = SKind.swap ∨ ev.kind = SKind.reset) ∧
          ∀ x ∈ ev.indices, x ≤ (j : ℤ) + steps := by
  intro steps
  induction steps with
  | zero =>
      intro j arr anims
      exact ⟨[], by simp [bubbleInner], by simp⟩
  | succ steps ih =>
      intro j arr anims
      rw [bubbleInner]
      by_cases h : shouldSwap o (arr.getD j 0) (arr.getD (j + 1) 0)
      · rw [if_pos h]
        obtain ⟨Δ, hEq, hProp⟩ := ih (j + 1) (swapList arr j (j + 1))
          (anims ++ [⟨.compare, [(j : ℤ), (j : ℤ) + 1]⟩,
            ⟨.swap, [(j : ℤ), (j : ℤ) + 1]⟩,
            ⟨.reset, [(j : ℤ), (j : ℤ) + 1]⟩])
        refine ⟨⟨.compare, [(j : ℤ), (j : ℤ) + 1]⟩ ::
          ⟨.swap, [(j : ℤ), (j : ℤ) + 1]⟩ ::
          ⟨.reset, [(j : ℤ), (j : ℤ) + 1]⟩ :: Δ, by simp [hEq], ?_⟩
        intro ev hev
        rcases List.mem_cons.mp hev with rfl | hev
        · exact ⟨Or.inl rfl, by intro x hx; simp at hx; push_cast; omega⟩
        rcases List.mem_cons.mp hev with rfl | hev
        · exact ⟨Or.inr (Or.inl rfl), by intro x hx; simp at hx; push_cast; omega⟩
        rcases List.mem_cons.mp hev with rfl | hev
        · exact ⟨Or.inr (Or.inr rfl), by intro x hx; simp at hx; push_cast; omega⟩
        · obtain ⟨hk, hb⟩ := hProp ev hev
          refine ⟨hk, ?_⟩
          intro x hx
          have := hb x hx
          push_cast at this ⊢
          omega
      · rw [if_neg h]
        obtain ⟨Δ, hEq, hProp⟩ := ih (j + 1) arr
          (anims ++ [⟨.compare, [(j : ℤ), (j : ℤ) + 1]⟩,
            ⟨.reset, [(j : ℤ), (j : ℤ) + 1]⟩])
        refine ⟨⟨.compare, [(j : ℤ), (j : ℤ) + 1]⟩ ::
          ⟨.reset, [(j : ℤ), (j : ℤ) + 1]⟩ :: Δ, by simp [hEq], ?_⟩
        intro ev hev
        rcases List.mem_cons.mp hev with rfl | hev
        · exact ⟨Or.inl rfl, by intro x hx; simp at hx; push_cast; omega⟩
        rcases List.mem_cons.mp hev with rfl | hev
        · exact ⟨Or.inr (Or.inr rfl), by intro x hx; simp at hx; push_cast; omega⟩
        · obtain ⟨hk, hb⟩ := hProp ev hev
          refine ⟨hk, ?_⟩
          intro x hx
          have := hb x hx
          push_cast at this ⊢
          omega

theorem bubbleOuter_anims (o : SortOrder) (n : Nat) :
    ∀ (passes i : Nat) (arr : List ℤ) (anims : List SStep),
      i + passes = n - 1 →
      ∃ Δ, (bubbleOuter o n passes i arr anims).2 = anims ++ Δ ∧
        List.Pairwise noTouchAfterFinal Δ ∧
        ∀ ev ∈ Δ, (ev.kind = SKind.compare ∨ ev.kind = SKind.swap) →
          ∀ x ∈ ev.indices, x ≤ (n : ℤ) - i - 1 := by
  intro passes
  induction passes with
  | zero =>
      intro i arr anims _
      exact ⟨[], by simp [bubbleOuter], by constructor, by simp⟩
  | succ passes ih =>
      intro i arr anims hpass
      have hn : n = i + passes + 2 := by omega
      rw [bubbleOuter]
      obtain ⟨Δi, hEqi, hPropi⟩ := bubbleInner_anims o (n - i - 1) 0 arr anims
      obtain ⟨Δo, hEqo, hPairo, hBoundo⟩ := ih (i + 1)
        (bubbleInner o (n - i - 1) 0 arr anims).1
        ((bubbleInner o (n - i - 1) 0 arr anims).2 ++
          [⟨.final_position, [((n - 1 - i : Nat) : ℤ)]⟩])
        (by omega)
      refine ⟨Δi ++ ([⟨.final_position, [((n - 1 - i : Nat) : ℤ)]⟩] ++ Δo),
        by rw [hEqo, hEqi]; simp, ?_, ?_⟩
      · rw [List.pairwise_append]
        refine ⟨?_, ?_, ?_⟩
        · apply List.pairwise_of_forall_mem_list
          intro a ha b _
          intro hfin _
          exact absurd hfin (by rcases (hPropi a ha).1 with h | h | h <;> simp [h])
        · rw [List.pairwise_append]
          refine ⟨by simp, hPairo, ?_⟩
          intro a ha b hb
          simp only [List.mem_singleton] at ha
          subst ha
          intro _ hcs x hx
          simp only [List.mem_singleton] at hx
          subst hx
          intro hmem
          have := hBoundo b hb hcs _ hmem
          have hcast : (((n - 1 - i : Nat)) : ℤ) = (n : ℤ) - 1 - i := by
            omega
          omega
        · intro a ha b _
          intro hfin _
          exact absurd hfin (by rcases (hPropi a ha).1 with h | h | h <;> simp [h])
      · intro ev hev hcs x hx
        rcases List.mem_append.mp hev with hev | hev
        · obtain ⟨_, hb⟩ := hPropi ev hev
          have := hb x hx
          have hcast : (((n - i - 1 : Nat)) : ℤ) = (n : ℤ) - i - 1 := by
            omega
          omega
        · rcases List.mem_append.mp hev with hev | hev
          · simp only [List.mem_singleton] at hev
            subst hev
            rcases hcs with h | h <;> simp at h
          · have := hBoundo ev hev hcs x hx
            omega

theorem bubbleSort_trace_pairwise (l : List ℤ) (o : SortOrder) :
    List.Pairwise noTouchAfterFinal (bubbleSort l o).animations := by
  obtain ⟨Δ, hEq, hPair, _⟩ :=
    bubbleOuter_anims o l.length (l.length - 1) 0 l [] (by omega)
  show List.Pairwise noTouchAfterFinal
    ((bubbleOuter o l.length (l.length - 1) 0 l []).2 ++
      [⟨.final_position, [0]⟩])
  rw [hEq]
  simp only [List.nil_append]
  rw [List.pairwise_append]
  refine ⟨hPair, by simp, ?_⟩
  intro a _ b hb
  simp only [List.mem_singleton] at hb
  subst hb
  intro _ hcs
  rcases hcs with h | h <;> simp at h

/-- **C6.** For every input sequence and order flag, in the trace produced
by the bubble sort generator, once a `final_position` (finalized) event
names index `i`, no subsequent event in that trace is a comparison or swap
whose indices include `i`. -/
theorem bubble_final_position_never_touched (arr : List ℤ) (o : SortOrder)
    (k kL : Nat) (ev evL : SStep) (hlt : k < kL)
    (hk : (bubbleSort arr o).animations.get? k = some ev)
    (hkL : (bubbleSort arr o).animations.get? kL = some evL)
    (hfin : ev.kind = SKind.final_position)
    (hcs : evL.kind = SKind.compare ∨ evL.kind = SKind.swap)
    (i : ℤ) (hi : i ∈ ev.indices) : i ∉ evL.indices := by
  obtain ⟨hklen, hkev⟩ := List.get?_eq_some.mp hk
  obtain ⟨hkLlen, hkLev⟩ := List.get?_eq_some.mp hkL
  have hp := (List.pairwise_iff_get.mp (bubbleSort_trace_pairwise arr o))
    ⟨k, hklen⟩ ⟨kL, hkLlen⟩ hlt
  rw [hkev, hkLev] at hp
  exact hp hfin hcs i hi

/-- Witness for the C6 theorem: in the ascending bubble trace of
`[3, 2, 1]`, step 6 finalizes index 2 and step 7 is a later comparison, so
the theorem applies and index 2 is indeed absent from it. -/
theorem bubble_final_position_never_touched_witness :
    (6 : Nat) < 7 ∧
      (bubbleSort [3, 2, 1] SortOrder.ascending).animations.get? 6 =
        some ⟨SKind.final_position, [2]⟩ ∧
      (bubbleSort [3, 2, 1] SortOrder.ascending).animations.get? 7 =
        some ⟨SKind.compare, [0, 1]⟩ ∧
      (2 : ℤ) ∉ (SStep.mk SKind.compare [0, 1]).indices :=
  ⟨by decide, by decide, by decide,
    bubble_final_position_never_touched [3, 2, 1] SortOrder.ascending 6 7
      ⟨SKind.final_position, [2]⟩ ⟨SKind.compare, [0, 1]⟩ (by decide)
      (by decide) (by decide) rfl (Or.inl rfl) 2 (by decide)⟩

/-! ### Index-level helper lemmas for `List.getD`, `List.set`, `swapList` -/

theorem getD_set_self (l : List ℤ) (i : Nat) (x : ℤ) (h : i < l.length) :
    (l.set i x).getD i 0 = x := by
  rw [List.getD_eq_getElem _ _ (by simpa using h)]
  simp [h]

theorem getD_set_ne (l : List ℤ) (i k : Nat) (x : ℤ) (h : i ≠ k) :
    (l.set i x).getD k 0 = l.getD k 0 := by
  by_cases hk : k < l.length
  · rw [List.getD_eq_getElem _ _ (by simpa using hk),
      List.getD_eq_getElem _ _ hk]
    exact List.getElem_set_ne h _
  · rw [List.getD_eq_default _ _ (by simpa using Nat.le_of_not_lt hk),
      List.getD_eq_default _ _ (Nat.le_of_not_lt hk)]

theorem getD_swapList_fst (l : List ℤ) (i j : Nat) (hi : i < l.length)
    (hij : i ≠ j) : (swapList l i j).getD i 0 = l.getD j 0 := by
  unfold swapList
  rw [getD_set_ne _ _ _ _ (by omega), getD_set_self _ _ _ hi]

theorem getD_swapList_snd (l : List ℤ) (i j : Nat) (hj : j < l.length) :
    (swapList l i j).getD j 0 = l.getD i 0 := by
  unfold swapList
  rw [getD_set_self _ _ _ (by simpa using hj)]

theorem getD_swapList_other (l : List ℤ) (i j k : Nat) (hik : i ≠ k)
    (hjk : j ≠ k) : (swapList l i j).getD k 0 = l.getD k 0 := by
  unfold swapList
  rw [getD_set_ne _ _ _ _ hjk, getD_set_ne _ _ _ _ hik]

theorem exists_split_one (l : List ℤ) :
    ∀ j, j < l.length →
      ∃ pre suf, l = pre ++ l.getD j 0 :: suf ∧ pre.length = j := by
  induction l with
  | nil => intro j hj; simp at hj
  | cons a t ih =>
      intro j hj
      match j with
      | 0 => exact ⟨[], t, by simp, rfl⟩
      | j + 1 =>
          obtain ⟨pre, suf, hEq, hLen⟩ := ih j (by simpa using hj)
          exact ⟨a :: pre, suf, by simpa using hEq, by simp [hLen]⟩

theorem exists_split_two (l : List ℤ) (i j : Nat) (hij : i < j)
    (hj : j < l.length) :
    ∃ pre mid suf, l = pre ++ l.getD i 0 :: (mid ++ l.getD j 0 :: suf) ∧
      pre.length = i ∧ mid.length = j - i - 1 := by
  obtain ⟨pre, suf, hEq, hLen⟩ := exists_split_one l i (by omega)
  have hsuflen : suf.length = l.length - i - 1 := by
    have := congrArg List.length hEq
    simp at this
    omega
  obtain ⟨mid, suf₂, hEq₂, hLen₂⟩ := exists_split_one suf (j - i - 1) (by omega)
  have hgd : l.getD j 0 = suf.getD (j - i - 1) 0 := by
    conv_lhs =>
      rw [hEq, show j = pre.length + (j - i) by omega, getD_append_cons_add,
        show j - i = (j - i - 1) + 1 by omega, List.getD_cons_succ]
  refine ⟨pre, mid, suf₂, ?_, hLen, by omega⟩
  conv_lhs => rw [hEq, hEq₂]
  rw [hgd]

theorem swapList_self (l : List ℤ) (i : Nat) : swapList l i i = l := by
  unfold swapList
  rw [List.set_set]
  induction l generalizing i with
  | nil => simp
  | cons a t ih =>
      match i with
      | 0 => simp
      | i + 1 => simpa using ih i

theorem swapList_perm (l : List ℤ) (i j : Nat) (hi : i < l.length)
    (hj : j < l.length) : (swapList l i j).Perm l := by
  rcases Nat.lt_trichotomy i j with hij | hij | hij
  · obtain ⟨pre, mid, suf, hEq, hpre, hmid⟩ := exists_split_two l i j hij hj
    conv_lhs => rw [hEq]
    conv_rhs => rw [hEq]
    rw [show i = pre.length from hpre.symm,
      show j = pre.length + (1 + mid.length) by omega,
      swapList_decomp]
    exact perm_swap_middle pre mid suf _ _
  · subst hij
    rw [swapList_self]
  · obtain ⟨pre, mid, suf, hEq, hpre, hmid⟩ := exists_split_two l j i hij hi
    have hcomm : swapList l i j = swapList l j i := by
      unfold swapList
      rw [List.set_comm _ _ _ (by omega)]
    rw [hcomm]
    conv_lhs => rw [hEq]
    conv_rhs => rw [hEq]
    rw [show j = pre.length from hpre.symm,
      show i = pre.length + (1 + mid.length) by omega,
      swapList_decomp]
    exact perm_swap_middle pre mid suf _ _

/-- Sortedness from the pairwise order of positional reads. -/
theorem sorted_of_getD_pairs (o : SortOrder) (l : List ℤ)
    (h : ∀ p q, p < q → q < l.length → orel o (l.getD p 0) (l.getD q 0)) :
    List.Sorted (orel o) l := by
  rw [List.Sorted, List.pairwise_iff_get]
  intro p q hpq
  simp only [List.get_eq_getElem]
  have hpq' : (p : ℕ) < (q : ℕ) := hpq
  have hh := h p q hpq' q.isLt
  rwa [List.getD_eq_getElem _ _ (Nat.lt_trans hpq' q.isLt),
    List.getD_eq_getElem _ _ q.isLt] at hh

/-! ### Selection sort (`selectionSort`, `SortingVisualizer.js` lines 112-175)

The inner scan `for (j = i + 1; j < arr.length; j++)` does not modify the
array; it only moves `minOrMaxIndex`.  `shouldUpdateMinIndex` is the same
comparator as `shouldSwap` (see above). -/

def selInner (o : SortOrder) (arr : List ℤ) :
    Nat → Nat → Nat → List SStep → Nat × List SStep
  | 0, _, minIdx, anims => (minIdx, anims)
  | steps + 1, j, minIdx, anims =>
      if shouldSwap o (arr.getD minIdx 0) (arr.getD j 0) then
        selInner o arr steps (j + 1) j
          (anims ++ [⟨.compare, [(j : ℤ), (minIdx : ℤ)]⟩,
            ⟨.mark_min_change, [(j : ℤ), (minIdx : ℤ)]⟩,
            ⟨.reset, [(j : ℤ), (j : ℤ)]⟩])
      else
        selInner o arr steps (j + 1) minIdx
          (anims ++ [⟨.compare, [(j : ℤ), (minIdx : ℤ)]⟩,
            ⟨.reset, [(j : ℤ), (minIdx : ℤ)]⟩])

def selOuter (o : SortOrder) (n : Nat) :
    Nat → Nat → List ℤ → List SStep → List ℤ × List SStep
  | 0, _, arr, anims => (arr, anims)
  | passes + 1, i, arr, anims =>
      let r := selInner o arr (n - i - 1) (i + 1) i
        (anims ++ [⟨.mark_min, [(i : ℤ)]⟩])
      if r.1 ≠ i then
        selOuter o n passes (i + 1) (swapList arr i r.1)
          (r.2 ++ [⟨.swap, [(i : ℤ), (r.1 : ℤ)]⟩,
            ⟨.final_position, [(i : ℤ)]⟩])
      else
        selOuter o n passes (i + 1) arr
          (r.2 ++ [⟨.final_position, [(i : ℤ)]⟩])

def selectionSort (array : List ℤ) (o : SortOrder) : SortResult :=
  let n := array.length
  let r := selOuter o n n 0 array []
  ⟨r.2 ++ [⟨.final_position, [(n : ℤ) - 1]⟩], r.1⟩

/-- The inner scan returns the position of the best element of the window
`[j, j + steps)` together with the incumbent `minIdx`. -/
theorem selInner_spec (o : SortOrder) (arr : List ℤ) :
    ∀ (steps j minIdx : Nat) (anims : List SStep),
      ((selInner o arr steps j minIdx anims).1 = minIdx ∨
        (j ≤ (selInner o arr steps j minIdx anims).1 ∧
          (selInner o arr steps j minIdx anims).1 < j + steps)) ∧
      orel o (arr.getD (selInner o arr steps j minIdx anims).1 0)
        (arr.getD minIdx 0) ∧
      ∀ k, j ≤ k → k < j + steps →
        orel o (arr.getD (selInner o arr steps j minIdx anims).1 0)
          (arr.getD k 0) := by
  intro steps
  induction steps with
  | zero =>
      intro j minIdx anims
      refine ⟨Or.inl rfl, ?_, ?_⟩
      · rw [selInner]
        exact orel_refl o _
      · intro k h₁ h₂
        omega
  | succ steps ih =>
      intro j minIdx anims
      rw [selInner]
      by_cases h : shouldSwap o (arr.getD minIdx 0) (arr.getD j 0)
      · rw [if_pos h]
        obtain ⟨hpos, hle, hall⟩ := ih (j + 1) j
          (anims ++ [⟨.compare, [(j : ℤ), (minIdx : ℤ)]⟩,
            ⟨.mark_min_change, [(j : ℤ), (minIdx : ℤ)]⟩,
            ⟨.reset, [(j : ℤ), (j : ℤ)]⟩])
        refine ⟨?_, ?_, ?_⟩
        · rcases hpos with h' | h' <;> [exact Or.inr (by omega); exact Or.inr (by omega)]
        · exact orel_trans hle (orel_of_shouldSwap h)
        · intro k h₁ h₂
          rcases Nat.eq_or_lt_of_le h₁ with rfl | h₁
          · exact hle
          · exact hall k h₁ (by omega)
      · rw [if_neg h]
        obtain ⟨hpos, hle, hall⟩ := ih (j + 1) minIdx
          (anims ++ [⟨.compare, [(j : ℤ), (minIdx : ℤ)]⟩,
            ⟨.reset, [(j : ℤ), (minIdx : ℤ)]⟩])
        refine ⟨?_, hle, ?_⟩
        · rcases hpos with h' | h' <;> [exact Or.inl h'; exact Or.inr (by omega)]
        · intro k h₁ h₂
          rcases Nat.eq_or_lt_of_le h₁ with rfl | h₁
          · exact orel_trans hle
              ((orel_iff_not_shouldSwap o _ _).mpr (by simpa using h))
          · exact hall k h₁ (by omega)

theorem selOuter_sorted_perm (o : SortOrder) (n : Nat) :
    ∀ (passes i : Nat) (arr : List ℤ) (anims : List SStep),
      i + passes = n → n = arr.length →
      (∀ p q, p < q → q < arr.length → p < i →
        orel o (arr.getD p 0) (arr.getD q 0)) →
      List.Sorted (orel o) ((selOuter o n passes i arr anims).1) ∧
        ((selOuter o n passes i arr anims).1).Perm arr := by
  intro passes
  induction passes with
  | zero =>
      intro i arr anims hni hlen hinv
      rw [selOuter]
      refine ⟨sorted_of_getD_pairs o arr ?_, List.Perm.refl arr⟩
      intro p q hpq hq
      exact hinv p q hpq hq (by omega)
  | succ passes ih =>
      intro i arr anims hni hlen hinv
      rw [selOuter]
      obtain ⟨hpos, hle, hall⟩ := selInner_spec o arr (n - i - 1) (i + 1) i
        (anims ++ [⟨.mark_min, [(i : ℤ)]⟩])
      set m := (selInner o arr (n - i - 1) (i + 1) i
        (anims ++ [⟨.mark_min, [(i : ℤ)]⟩])).1 with hm
      have hiLt : i < n := by omega
      have hmRange : i ≤ m ∧ m < n := by
        rcases hpos with h' | h' <;> omega
      have hbest : ∀ k, i ≤ k → k < n → orel o (arr.getD m 0) (arr.getD k 0) := by
        intro k h₁ h₂
        rcases Nat.eq_or_lt_of_le h₁ with rfl | h₁
        · exact hle
        · exact hall k h₁ (by omega)
      by_cases hmi : m ≠ i
      · rw [if_pos hmi]
        have harr2 := swapList_perm arr i m (by omega) (by omega)
        have hlen2 : (swapList arr i m).length = arr.length := swapList_length arr i m
        have hmGt : i < m := by omega
        have hinv2 : ∀ p q, p < q → q < (swapList arr i m).length → p < i + 1 →
            orel o ((swapList arr i m).getD p 0) ((swapList arr i m).getD q 0) := by
          intro p q hpq hq hp
          rw [hlen2] at hq
          have hgp : (swapList arr i m).getD p 0 =
              if p = i then arr.getD m 0 else arr.getD p 0 := by
            by_cases hpi : p = i
            · rw [if_pos hpi, hpi]
              exact getD_swapList_fst arr i m (by omega) (by omega)
            · rw [if_neg hpi]
              exact getD_swapList_other arr i m p (fun hc => hpi hc.symm) (by omega)
          have hgq : (swapList arr i m).getD q 0 =
              if q = i then arr.getD m 0
              else if q = m then arr.getD i 0 else arr.getD q 0 := by
            by_cases hqi : q = i
            · rw [if_pos hqi, hqi]
              exact getD_swapList_fst arr i m (by omega) (by omega)
            · rw [if_neg hqi]
              by_cases hqm : q = m
              · rw [if_pos hqm, hqm]
                exact getD_swapList_snd arr i m (by omega)
              · rw [if_neg hqm]
                exact getD_swapList_other arr i m q (fun hc => hqi hc.symm)
                  (fun hc => hqm hc.symm)
          rw [hgp, hgq]
          by_cases hpi : p = i
          · rw [if_pos hpi, if_neg (by omega)]
            by_cases hqm : q = m
            · rw [if_pos hqm]
              exact hbest i (by omega) (by omega)
            · rw [if_neg hqm]
              exact hbest q (by omega) (by omega)
          · rw [if_neg hpi]
            have hpi' : p < i := by omega
            by_cases hqi : q = i
            · rw [if_pos hqi]
              exact hinv p m (by omega) (by omega) (by omega)
            · rw [if_neg hqi]
              by_cases hqm : q = m
              · rw [if_pos hqm]
                exact hinv p i (by omega) (by omega) (by omega)
              · rw [if_neg hqm]
                exact hinv p q hpq (by omega) (by omega)
        have hrec := ih (i + 1) (swapList arr i m)
          ((selInner o arr (n - i - 1) (i + 1) i
              (anims ++ [⟨.mark_min, [(i : ℤ)]⟩])).2 ++
            [⟨.swap, [(i : ℤ), (m : ℤ)]⟩, ⟨.final_position, [(i : ℤ)]⟩])
          (by omega) (by omega) hinv2
        exact ⟨hrec.1, hrec.2.trans harr2⟩
      · rw [if_neg hmi]
        push_neg at hmi
        have hinv2 : ∀ p q, p < q → q < arr.length → p < i + 1 →
            orel o (arr.getD p 0) (arr.getD q 0) := by
          intro p q hpq hq hp
          by_cases hpi : p = i
          · subst hpi
            have := hbest q (by omega) (by omega)
            rwa [hmi] at this
          · exact hinv p q hpq hq (by omega)
        exact ih (i + 1) arr
          ((selInner o arr (n - i - 1) (i + 1) i
              (anims ++ [⟨.mark_min, [(i : ℤ)]⟩])).2 ++
            [⟨.final_position, [(i : ℤ)]⟩])
          (by omega) hlen hinv2

theorem selectionSort_finalArray (l : List ℤ) (o : SortOrder) :
    (selectionSort l o).finalArray = canonicalSort o l := by
  obtain ⟨hs, hp⟩ := selOuter_sorted_perm o l.length l.length 0 l []
    (by omega) rfl (by omega)
  exact eq_canonicalSort_of_sorted_of_perm hp hs

/-! ### Insertion sort (`insertionSort`, `SortingVisualizer.js` lines 177-233)

The inner `while (j >= 0 && shouldShift(arr[j], key))` loop is embedded as
`insInner`, recursing on `j + 1` (so the `j = -1` exit is the `0` case);
it returns the array, the trace, and the final value of `j + 1` (the
position where the key is then placed).  `shouldShift` is the same
comparator as `shouldSwap`. -/

def insInner (o : SortOrder) (key : ℤ) (i : Nat) :
    Nat → List ℤ → List SStep → List ℤ × List SStep × Nat
  | 0, arr, anims => (arr, anims, 0)
  | j + 1, arr, anims =>
      if shouldSwap o (arr.getD j 0) key then
        insInner o key i j (arr.set (j + 1) (arr.getD j 0))
          (anims ++ [⟨.compare, [(j : ℤ), (i : ℤ)]⟩,
            ⟨.shift, [(j : ℤ), (j : ℤ) + 1]⟩])
      else (arr, anims, j + 1)

def insOuter (o : SortOrder) (n : Nat) :
    Nat → Nat → List ℤ → List SStep → List ℤ × List SStep
  | 0, _, arr, anims => (arr, anims)
  | rem + 1, i, arr, anims =>
      let key := arr.getD i 0
      let r := insInner o key i i arr (anims ++ [⟨.mark_key, [(i : ℤ)]⟩])
      insOuter o n rem (i + 1) (r.1.set r.2.2 key)
        (r.2.1 ++ [⟨.place, [(r.2.2 : ℤ), (i : ℤ)]⟩,
          ⟨.reset_key, [(r.2.2 : ℤ), (i : ℤ)]⟩])

def insertionSort (array : List ℤ) (o : SortOrder) : SortResult :=
  let n := array.length
  let r := insOuter o n (n - 1) 1 array []
  ⟨r.2 ++ (List.range n).map (fun i => ⟨.final_position, [(i : ℤ)]⟩) ++
      [⟨.final_position, [(n : ℤ) - 1]⟩], r.1⟩

/-- Behaviour of the shift loop, with the prefix left of the hole given in
reversed form `pr` (so that the scan right-to-left peels `pr` head-first):
some initial segment `peeled` of `pr` is shifted one slot to the right and
the loop stops at position `par.length`, either at the array's left edge or
at an element that does not satisfy `shouldShift`. -/
theorem insInner_spec (o : SortOrder) (key : ℤ) (i : Nat) :
    ∀ (pr q₂ s : List ℤ) (hole : ℤ) (anims : List SStep),
      ∃ par peeled z,
        pr = peeled ++ par ∧
        (insInner o key i pr.length
            (pr.reverse ++ hole :: (q₂ ++ s)) anims).1 =
          par.reverse ++ z :: ((peeled.reverse ++ q₂) ++ s) ∧
        (insInner o key i pr.length
            (pr.reverse ++ hole :: (q₂ ++ s)) anims).2.2 = par.length ∧
        (∀ x ∈ peeled, shouldSwap o x key = true) ∧
        (par = [] ∨ ∃ aL pr₂, par = aL :: pr₂ ∧ shouldSwap o aL key = false) := by
  intro pr
  induction pr with
  | nil =>
      intro q₂ s hole anims
      exact ⟨[], [], hole, by simp, by simp [insInner], by simp [insInner], by simp,
        Or.inl rfl⟩
  | cons a pr ih =>
      intro q₂ s hole anims
      have hlen : (a :: pr).length = pr.length + 1 := rfl
      have hrev : (a :: pr).reverse ++ hole :: (q₂ ++ s) =
          pr.reverse ++ (a :: (hole :: (q₂ ++ s))) := by
        simp
      have hget : (pr.reverse ++ (a :: (hole :: (q₂ ++ s)))).getD pr.length 0 = a := by
        have h := getD_append_cons pr.reverse (hole :: (q₂ ++ s)) a
        simpa using h
      rw [hlen, hrev]
      rw [insInner]
      rw [hget]
      by_cases h : shouldSwap o a key
      · rw [if_pos h]
        have hset : (pr.reverse ++ (a :: (hole :: (q₂ ++ s)))).set (pr.length + 1) a =
            pr.reverse ++ (a :: (a :: (q₂ ++ s))) := by
          have hp : pr.length + 1 = (pr.reverse ++ [a]).length + 0 := by simp
          rw [hp]
          have hassoc : pr.reverse ++ (a :: (hole :: (q₂ ++ s))) =
              (pr.reverse ++ [a]) ++ (hole :: (q₂ ++ s)) := by simp
          rw [hassoc, set_append_right, List.set_cons_zero]
          simp
        rw [hset]
        obtain ⟨par, peeled, z, hsplit, hArr, hJ, hPeel, hStop⟩ :=
          ih (a :: q₂) s a
            (anims ++ [⟨.compare, [(pr.length : ℤ), (i : ℤ)]⟩,
              ⟨.shift, [(pr.length : ℤ), (pr.length : ℤ) + 1]⟩])
        refine ⟨par, a :: peeled, z, by simp [hsplit], ?_, ?_, ?_, hStop⟩
        · simp only [List.cons_append] at hArr ⊢
          rw [hArr]
          simp
        · simp only [List.cons_append] at hJ ⊢
          rw [hJ]
        · intro x hx
          rcases List.mem_cons.mp hx with rfl | hx
          · exact h
          · exact hPeel x hx
      · rw [if_neg h]
        refine ⟨a :: pr, [], hole, by simp, by simp, by simp, by simp,
          Or.inr ⟨a, pr, rfl, by simpa using h⟩⟩

theorem sorted_all_orel_last (o : SortOrder) (l : List ℤ) (aL : ℤ)
    (h : List.Sorted (orel o) (l ++ [aL])) : ∀ x ∈ l ++ [aL], orel o x aL := by
  rw [List.Sorted, List.pairwise_append] at h
  intro x hx
  rcases List.mem_append.mp hx with hx | hx
  · exact h.2.2 x hx aL (by simp)
  · simp only [List.mem_singleton] at hx
    subst hx
    exact orel_refl o _

theorem insOuter_sorted_perm (o : SortOrder) (n : Nat) :
    ∀ (rem i : Nat) (p s : List ℤ) (anims : List SStep),
      p.length = i → i + rem = n → n = (p ++ s).length →
      List.Sorted (orel o) p →
      List.Sorted (orel o) ((insOuter o n rem i (p ++ s) anims).1) ∧
        ((insOuter o n rem i (p ++ s) anims).1).Perm (p ++ s) := by
  intro rem
  induction rem with
  | zero =>
      intro i p s anims hp hi hn hsort
      rw [insOuter]
      have hlen : (p ++ s).length = p.length + s.length := by simp
      have hs : s = [] := by
        have : s.length = 0 := by omega
        exact List.eq_nil_of_length_eq_zero this
      subst hs
      exact ⟨by simpa using hsort, List.Perm.refl _⟩
  | succ rem ih =>
      intro i p s anims hp hi hn hsort
      match s with
      | [] =>
          exfalso
          have : (p ++ ([] : List ℤ)).length = p.length := by simp
          omega
      | key :: s₂ =>
        rw [insOuter]
        have hkey : (p ++ key :: s₂).getD i 0 = key := by
          rw [← hp]
          exact getD_append_cons p s₂ key
        rw [hkey]
        obtain ⟨par, peeled, z, hsplit, hArr, hJ, hPeel, hStop⟩ :=
          insInner_spec o key i p.reverse [] s₂ key
            (anims ++ [⟨.mark_key, [(i : ℤ)]⟩])
        have hpEq : p = par.reverse ++ peeled.reverse := by
          rw [show p = p.reverse.reverse by simp, hsplit]
          simp
        have hlenSplit : peeled.length + par.length = i := by
          have := congrArg List.length hsplit
          simp at this
          omega
        simp only [List.reverse_reverse, List.length_reverse, List.nil_append,
          List.append_nil, hp] at hArr hJ
        rw [hArr, hJ]
        have hset : (par.reverse ++ z :: (peeled.reverse ++ s₂)).set par.length key =
            par.reverse ++ key :: (peeled.reverse ++ s₂) := by
          have h0 := set_append_right par.reverse (z :: (peeled.reverse ++ s₂)) 0 key
          simp only [Nat.add_zero, List.length_reverse] at h0
          rw [h0, List.set_cons_zero]
        rw [hset]
        have hsortA : List.Sorted (orel o) par.reverse ∧
            List.Sorted (orel o) peeled.reverse ∧
            ∀ x ∈ par.reverse, ∀ y ∈ peeled.reverse, orel o x y := by
          have h := hsort
          rw [hpEq, List.Sorted, List.pairwise_append] at h
          exact ⟨h.1, h.2.1, h.2.2⟩
        have hsortNew : List.Sorted (orel o)
            (par.reverse ++ key :: peeled.reverse) := by
          rw [List.Sorted, List.pairwise_append]
          refine ⟨hsortA.1, ?_, ?_⟩
          · rw [List.pairwise_cons]
            refine ⟨?_, hsortA.2.1⟩
            intro y hy
            have hy' : y ∈ peeled := by
              simpa using hy
            exact orel_of_shouldSwap (hPeel y hy')
          · intro x hx y hy
            rcases List.mem_cons.mp hy with rfl | hy
            · rcases hStop with hpar | ⟨aL, pr₂, hparEq, hstop⟩
              · rw [hpar] at hx
                simp at hx
              · have hxA : x ∈ pr₂.reverse ++ [aL] := by
                  rw [hparEq] at hx
                  simpa using hx
                have hlast := sorted_all_orel_last o pr₂.reverse aL
                  (by
                    have := hsortA.1
                    rw [hparEq] at this
                    simpa using this)
                  x hxA
                exact orel_trans hlast
                  ((orel_iff_not_shouldSwap o aL y).mpr (by simpa using hstop))
            · exact hsortA.2.2 x hx y hy
        have hassoc : par.reverse ++ key :: (peeled.reverse ++ s₂) =
            (par.reverse ++ key :: peeled.reverse) ++ s₂ := by
          simp
        rw [hassoc]
        have hrec := ih (i + 1) (par.reverse ++ key :: peeled.reverse) s₂
          ((insInner o key i i (p ++ key :: s₂)
              (anims ++ [⟨.mark_key, [(i : ℤ)]⟩])).2.1 ++
            [⟨.place, [(par.length : ℤ), (i : ℤ)]⟩,
              ⟨.reset_key, [(par.length : ℤ), (i : ℤ)]⟩])
          (by simp; omega) (by omega)
          (by
            have h1 : ((par.reverse ++ key :: peeled.reverse) ++ s₂).length =
                par.length + 1 + peeled.length + s₂.length := by
              simp
              omega
            have h2 : (p ++ key :: s₂).length = p.length + 1 + s₂.length := by
              simp
              omega
            omega)
          hsortNew
        refine ⟨hrec.1, hrec.2.trans ?_⟩
        rw [List.perm_iff_count]
        intro x
        rw [hpEq]
        simp [List.count_append, List.count_cons]
        omega

theorem insertionSort_finalArray (l : List ℤ) (o : SortOrder) :
    (insertionSort l o).finalArray = canonicalSort o l := by
  match l with
  | [] =>
      show (insOuter o 0 0 1 [] []).1 = canonicalSort o []
      rw [insOuter]
      rfl
  | a :: t =>
      have h := insOuter_sorted_perm o (a :: t).length t.length 1 [a] t []
        (by simp) (by simp; omega) (by simp) (by simp)
      simp only [List.cons_append, List.nil_append] at h
      exact eq_canonicalSort_of_sorted_of_perm h.2 h.1

/-! ### Merge sort (`mergeSort`, `SortingVisualizer.js` lines 310-382)

`merge(arr, l, m, r)` works with two cursors `i ∈ [l, m]`, `j ∈ [m+1, r]`
into the array, a temporary buffer, and a final write-back loop.  The three
`while` loops and the write-back `for` loop are embedded as separate
functions recursing on their (well-founded) cursor distances.  Note the
comparator takes the right element first: `shouldSwap(arr[j], arr[i])`, so
on ties (`shouldSwap = false`) the right-half element is taken first. -/

def mergeLoop1 (o : SortOrder) (arr : List ℤ) (m r : Nat) (i j : Nat)
    (temp : List ℤ) (anims : List SStep) :
    List ℤ × List SStep × Nat × Nat :=
  if h : i ≤ m ∧ j ≤ r then
    if shouldSwap o (arr.getD j 0) (arr.getD i 0) then
      mergeLoop1 o arr m r (i + 1) j (temp ++ [arr.getD i 0])
        (anims ++ [⟨.compare, [(i : ℤ), (j : ℤ)]⟩,
          ⟨.reset_compare, [(i : ℤ), (j : ℤ) - 1]⟩])
    else
      mergeLoop1 o arr m r i (j + 1) (temp ++ [arr.getD j 0])
        (anims ++ [⟨.compare, [(i : ℤ), (j : ℤ)]⟩,
          ⟨.reset_compare, [(i : ℤ) - 1, (j : ℤ)]⟩])
  else (temp, anims, i, j)
termination_by (m + 1 - i) + (r + 1 - j)
decreasing_by
  all_goals omega

def mergeCopyRest (arr : List ℤ) (bound : Nat) (i : Nat) (temp : List ℤ) :
    List ℤ :=
  if _h : i ≤ bound then
    mergeCopyRest arr bound (i + 1) (temp ++ [arr.getD i 0])
  else temp
termination_by bound + 1 - i
decreasing_by
  omega

def mergeWriteBack (temp : List ℤ) (r : Nat) (i k : Nat) (arr : List ℤ)
    (anims : List SStep) : List ℤ × List SStep :=
  if h : i ≤ r then
    mergeWriteBack temp r (i + 1) (k + 1) (arr.set i (temp.getD k 0))
      (anims ++ [⟨.overwrite, [(i : ℤ), temp.getD k 0]⟩])
  else (arr, anims)
termination_by r + 1 - i
decreasing_by
  omega

def merge (o : SortOrder) (arr : List ℤ) (l m r : Nat)
    (anims : List SStep) : List ℤ × List SStep :=
  let t := mergeLoop1 o arr m r l (m + 1) [] anims
  mergeWriteBack (mergeCopyRest arr r t.2.2.2 (mergeCopyRest arr m t.2.2.1 t.1))
    r l 0 arr t.2.1

def mergeSortRec (o : SortOrder) (l r : Nat) (arr : List ℤ)
    (anims : List SStep) : List ℤ × List SStep :=
  if _h : l < r then
    let m := l + (r - l) / 2
    let res1 := mergeSortRec o l m arr anims
    let res2 := mergeSortRec o (m + 1) r res1.1 res1.2
    merge o res2.1 l m r res2.2
  else (arr, anims)
termination_by r - l
decreasing_by
  all_goals omega

def mergeSort (array : List ℤ) (o : SortOrder) : SortResult :=
  let n := array.length
  let r := mergeSortRec o 0 (n - 1) array []
  ⟨r.2 ++ (List.range n).map (fun i => ⟨.final_position, [(i : ℤ)]⟩) ++
      [⟨.final_position, [(n : ℤ) - 1]⟩], r.1⟩

/-- The structural two-way merge realized by the cursor loops (ties take
the right element). -/
def mergeLists (o : SortOrder) : List ℤ → List ℤ → List ℤ
  | [], ys => ys
  | x :: xs, [] => x :: xs
  | x :: xs, y :: ys =>
      if shouldSwap o y x then x :: mergeLists o xs (y :: ys)
      else y :: mergeLists o (x :: xs) ys

theorem mergeLists_perm (o : SortOrder) :
    ∀ (xs ys : List ℤ), (mergeLists o xs ys).Perm (xs ++ ys)
  | [], ys => by simp [mergeLists]
  | x :: xs, [] => by simp [mergeLists]
  | x :: xs, y :: ys => by
      rw [mergeLists]
      by_cases h : shouldSwap o y x
      · rw [if_pos h]
        exact (mergeLists_perm o xs (y :: ys)).cons x
      · rw [if_neg h]
        exact ((mergeLists_perm o (x :: xs) ys).cons y).trans
          List.perm_middle.symm
termination_by xs ys => xs.length + ys.length

theorem mergeLists_sorted (o : SortOrder) :
    ∀ (xs ys : List ℤ), List.Sorted (orel o) xs → List.Sorted (orel o) ys →
      List.Sorted (orel o) (mergeLists o xs ys)
  | [], ys, _, hys => by simpa [mergeLists] using hys
  | x :: xs, [], hxs, _ => by simpa [mergeLists] using hxs
  | x :: xs, y :: ys, hxs, hys => by
      rw [mergeLists]
      by_cases h : shouldSwap o y x
      · rw [if_pos h]
        rw [List.sorted_cons]
        refine ⟨?_, mergeLists_sorted o xs (y :: ys) hxs.of_cons hys⟩
        intro b hb
        have hb' := (mergeLists_perm o xs (y :: ys)).subset hb
        rcases List.mem_append.mp hb' with hb' | hb'
        · exact List.rel_of_sorted_cons hxs b hb'
        · rcases List.mem_cons.mp hb' with rfl | hb'
          · exact orel_of_shouldSwap h
          · exact orel_trans (orel_of_shouldSwap h)
              (List.rel_of_sorted_cons hys b hb')
      · rw [if_neg h]
        rw [List.sorted_cons]
        refine ⟨?_, mergeLists_sorted o (x :: xs) ys hxs hys.of_cons⟩
        intro b hb
        have hb' := (mergeLists_perm o (x :: xs) ys).subset hb
        have hyx : orel o y x :=
          (orel_iff_not_shouldSwap o y x).mpr (by simpa using h)
        rcases List.mem_append.mp hb' with hb' | hb'
        · rcases List.mem_cons.mp hb' with rfl | hb'
          · exact hyx
          · exact orel_trans hyx (List.rel_of_sorted_cons hxs b hb')
        · exact List.rel_of_sorted_cons hys b hb'
termination_by xs ys => xs.length + ys.length

theorem canonicalSort_length (o : SortOrder) (l : List ℤ) :
    (canonicalSort o l).length = l.length :=
  (canonicalSort_perm o l).length_eq

theorem canonicalSort_append_merge (o : SortOrder) (A B : List ℤ) :
    mergeLists o (canonicalSort o A) (canonicalSort o B) =
      canonicalSort o (A ++ B) :=
  eq_canonicalSort_of_sorted_of_perm
    ((mergeLists_perm o _ _).trans
      ((canonicalSort_perm o A).append (canonicalSort_perm o B)))
    (mergeLists_sorted o _ _ (canonicalSort_sorted o A)
      (canonicalSort_sorted o B))

theorem getD_concat_three (P A Q suf : List ℤ) (b : ℤ) :
    (P ++ (A ++ (Q ++ (b :: suf)))).getD (P.length + A.length + Q.length) 0 =
      b := by
  rw [show P ++ (A ++ (Q ++ (b :: suf))) = (P ++ A ++ Q) ++ b :: suf by simp,
    show P.length + A.length + Q.length = (P ++ A ++ Q).length by
      simp only [List.length_append]]
  exact getD_append_cons _ _ _

theorem mergeCopyRest_spec (bound : Nat) :
    ∀ (rest P S temp : List ℤ), P.length + rest.length = bound + 1 →
      mergeCopyRest (P ++ (rest ++ S)) bound P.length temp = temp ++ rest := by
  intro rest
  induction rest with
  | nil =>
      intro P S temp hlen
      rw [mergeCopyRest, dif_neg (by simp at hlen; omega)]
      simp
  | cons a rest ih =>
      intro P S temp hlen
      rw [mergeCopyRest, dif_pos (by simp at hlen; omega)]
      have hget : (P ++ (a :: rest ++ S)).getD P.length 0 = a := by
        have h := getD_append_cons P (rest ++ S) a
        simpa using h
      simp only [List.cons_append] at hget ⊢
      rw [hget]
      have harr : P ++ a :: (rest ++ S) = (P ++ [a]) ++ (rest ++ S) := by simp
      have hlen' : (P ++ [a]).length = P.length + 1 := by simp
      rw [harr, show P.length + 1 = (P ++ [a]).length by simp]
      rw [ih (P ++ [a]) S (temp ++ [a]) (by simp at hlen ⊢; omega)]
      simp

theorem mergeWriteBack_spec (temp : List ℤ) (r : Nat) :
    ∀ (mid P S : List ℤ) (k : Nat) (anims : List SStep),
      P.length + mid.length = r + 1 → k + mid.length ≤ temp.length →
      (mergeWriteBack temp r P.length k (P ++ (mid ++ S)) anims).1 =
        P ++ ((temp.drop k).take mid.length ++ S) := by
  intro mid
  induction mid with
  | nil =>
      intro P S k anims hlen hk
      rw [mergeWriteBack, dif_neg (by simp at hlen; omega)]
      simp
  | cons b mid ih =>
      intro P S k anims hlen hk
      rw [mergeWriteBack, dif_pos (by simp at hlen; omega)]
      have hset : (P ++ (b :: mid ++ S)).set P.length (temp.getD k 0) =
          P ++ (temp.getD k 0 :: (mid ++ S)) := by
        have h := set_append_right P (b :: mid ++ S) 0 (temp.getD k 0)
        simp only [Nat.add_zero] at h
        simp only [List.cons_append] at h ⊢
        rw [h, List.set_cons_zero]
      simp only [List.cons_append] at hset ⊢
      rw [hset]
      have harr : P ++ temp.getD k 0 :: (mid ++ S) =
          (P ++ [temp.getD k 0]) ++ (mid ++ S) := by simp
      rw [harr, show P.length + 1 = (P ++ [temp.getD k 0]).length by simp]
      rw [ih (P ++ [temp.getD k 0]) S (k + 1) _ (by simp at hlen ⊢; omega)
        (by simp at hk; omega)]
      have hkLt : k < temp.length := by simp at hk; omega
      have hdrop : temp.drop k = temp.getD k 0 :: temp.drop (k + 1) := by
        rw [List.getD_eq_getElem _ _ hkLt]
        exact List.drop_eq_getElem_cons hkLt
      rw [hdrop]
      simp

/-- Exit state of the two-cursor loop: some prefix `A₁` of the left run and
prefix `B₁` of the right run have been merged into the buffer (`tmid`,
which is a prefix of the structural merge), the loop stops with cursors at
the leftovers `A₂`, `B₂`, and the structural merge is the buffer followed
by the leftovers (which the two copy loops then append). -/
theorem mergeLoop1_spec (o : SortOrder) (m r : Nat) :
    ∀ (Arest Brest P Q S temp : List ℤ) (anims : List SStep),
      P.length + Arest.length = m + 1 →
      P.length + Arest.length + Q.length + Brest.length = r + 1 →
      ∃ A₁ A₂ B₁ B₂ tmid anims₂,
        Arest = A₁ ++ A₂ ∧ Brest = B₁ ++ B₂ ∧
        mergeLists o Arest Brest = tmid ++ (A₂ ++ B₂) ∧
        mergeLoop1 o (P ++ (Arest ++ (Q ++ (Brest ++ S)))) m r P.length
          (P.length + Arest.length + Q.length) temp anims =
          (temp ++ tmid, anims₂, P.length + A₁.length,
            P.length + Arest.length + Q.length + B₁.length) := by
  intro Arest
  induction Arest with
  | nil =>
      intro Brest P Q S temp anims h1 h2
      simp only [List.length_nil, Nat.add_zero] at h1 h2
      refine ⟨[], [], [], Brest, [], anims, by simp, by simp,
        by simp [mergeLists], ?_⟩
      rw [mergeLoop1, dif_neg (by omega)]
      simp [h1]
  | cons a A₂x ihA =>
      intro Brest
      induction Brest with
      | nil =>
          intro P Q S temp anims h1 h2
          simp only [List.length_nil, Nat.add_zero, List.length_cons] at h1 h2
          refine ⟨[], a :: A₂x, [], [], [], anims, by simp, by simp,
            by simp [mergeLists], ?_⟩
          simp only [List.length_cons]
          rw [mergeLoop1, dif_neg (by omega)]
          simp
      | cons b B₂x ihB =>
          intro P Q S temp anims h1 h2
          simp only [List.length_cons] at h1 h2 ⊢
          rw [mergeLoop1, dif_pos ⟨by omega, by omega⟩]
          simp only [List.cons_append]
          have hgetI : (P ++ a :: (A₂x ++ (Q ++ (b :: (B₂x ++ S))))).getD
              P.length 0 = a := by
            have h := getD_append_cons P (A₂x ++ (Q ++ (b :: (B₂x ++ S)))) a
            simpa using h
          have hgetJ : (P ++ a :: (A₂x ++ (Q ++ (b :: (B₂x ++ S))))).getD
              (P.length + (A₂x.length + 1) + Q.length) 0 = b := by
            have h := getD_concat_three P (a :: A₂x) Q (B₂x ++ S) b
            simpa using h
          rw [hgetI, hgetJ]
          by_cases h : shouldSwap o b a
          · rw [if_pos h]
            rw [show P.length + (A₂x.length + 1) + Q.length =
              P.length + 1 + A₂x.length + Q.length from by omega]
            obtain ⟨A₁, A₂, B₁, B₂, tmid, anims₂, e1, e2, e3, e4⟩ :=
              ihA (b :: B₂x) (P ++ [a]) Q S (temp ++ [a])
                (anims ++ [⟨.compare, [(P.length : ℤ),
                    ((P.length + 1 + A₂x.length + Q.length : Nat) : ℤ)]⟩,
                  ⟨.reset_compare, [(P.length : ℤ),
                    ((P.length + 1 + A₂x.length + Q.length : Nat) : ℤ) - 1]⟩])
                (by simp; omega) (by simp; omega)
            simp only [List.append_assoc, List.singleton_append,
              List.cons_append, List.nil_append, List.length_append,
              List.length_cons, List.length_nil, Nat.zero_add,
              Nat.add_zero] at e4
            refine ⟨a :: A₁, A₂, B₁, B₂, a :: tmid, anims₂,
              by simp [e1], e2, ?_, ?_⟩
            · rw [mergeLists, if_pos h, e3]
              simp
            · rw [e4]
              simp only [Prod.mk.injEq, List.length_cons, true_and, and_true]
              omega
          · rw [if_neg h]
            obtain ⟨A₁, A₂, B₁, B₂, tmid, anims₂, e1, e2, e3, e4⟩ :=
              ihB P (Q ++ [b]) S (temp ++ [b])
                (anims ++ [⟨.compare, [(P.length : ℤ),
                    ((P.length + (A₂x.length + 1) + Q.length : Nat) : ℤ)]⟩,
                  ⟨.reset_compare, [(P.length : ℤ) - 1,
                    ((P.length + (A₂x.length + 1) + Q.length : Nat) : ℤ)]⟩])
                (by simp; omega) (by simp; omega)
            simp only [List.append_assoc, List.singleton_append,
              List.cons_append, List.nil_append, List.length_append,
              List.length_cons, List.length_nil, Nat.zero_add,
              Nat.add_zero] at e4
            rw [show P.length + (A₂x.length + 1) + (Q.length + 1) =
              P.length + (A₂x.length + 1) + Q.length + 1 from by omega] at e4
            refine ⟨A₁, A₂, b :: B₁, B₂, b :: tmid, anims₂,
              e1, by simp [e2], ?_, ?_⟩
            · rw [mergeLists, if_neg h, e3]
              simp
            · rw [e4]
              simp only [Prod.mk.injEq, List.length_cons, true_and, and_true]
              omega

theorem canonicalSort_nil (o : SortOrder) : canonicalSort o [] = [] := rfl

theorem canonicalSort_singleton (o : SortOrder) (x : ℤ) :
    canonicalSort o [x] = [x] := rfl

theorem merge_spec (o : SortOrder) (l m r : Nat) (P A B S : List ℤ)
    (anims : List SStep) (hP : P.length = l)
    (hA : P.length + A.length = m + 1)
    (hB : P.length + A.length + B.length = r + 1) :
    (merge o (P ++ (A ++ (B ++ S))) l m r anims).1 =
      P ++ (mergeLists o A B ++ S) := by
  subst hP
  obtain ⟨A₁, A₂, B₁, B₂, tmid, anims₂, e1, e2, e3, e4⟩ :=
    mergeLoop1_spec o m r A B P [] S [] anims hA (by simp; omega)
  simp only [List.nil_append, List.length_nil, Nat.add_zero] at e4
  have hlA : A₁.length + A₂.length = A.length := by
    have := congrArg List.length e1
    simp at this
    omega
  have hlB : B₁.length + B₂.length = B.length := by
    have := congrArg List.length e2
    simp at this
    omega
  rw [merge]
  rw [show m + 1 = P.length + A.length from hA.symm]
  rw [e4]
  simp only []
  have hc1 : mergeCopyRest (P ++ (A ++ (B ++ S))) m (P.length + A₁.length)
      tmid = tmid ++ A₂ := by
    rw [show P ++ (A ++ (B ++ S)) = (P ++ A₁) ++ (A₂ ++ (B ++ S)) from by
        rw [e1]; simp,
      show P.length + A₁.length = (P ++ A₁).length from by
        simp only [List.length_append]]
    exact mergeCopyRest_spec m A₂ (P ++ A₁) (B ++ S) tmid (by simp; omega)
  have hc2 : mergeCopyRest (P ++ (A ++ (B ++ S))) r
      (P.length + A.length + B₁.length) (tmid ++ A₂) = (tmid ++ A₂) ++ B₂ := by
    rw [show P ++ (A ++ (B ++ S)) = ((P ++ A) ++ B₁) ++ (B₂ ++ S) from by
        rw [e2]; simp,
      show P.length + A.length + B₁.length = ((P ++ A) ++ B₁).length from by
        simp only [List.length_append]]
    exact mergeCopyRest_spec r B₂ ((P ++ A) ++ B₁) S (tmid ++ A₂)
      (by simp; omega)
  rw [hc1, hc2]
  have hml : mergeLists o A B = (tmid ++ A₂) ++ B₂ := by
    rw [e3]
    simp
  have hlenML : ((tmid ++ A₂) ++ B₂).length = A.length + B.length := by
    rw [← hml]
    have h := (mergeLists_perm o A B).length_eq
    simp at h
    exact h
  have hw := mergeWriteBack_spec ((tmid ++ A₂) ++ B₂) r (A ++ B) P S 0 anims₂
    (by simp; omega) (by simp at hlenML ⊢; omega)
  rw [show P ++ (A ++ (B ++ S)) = P ++ ((A ++ B) ++ S) from by simp]
  rw [hw]
  rw [List.drop_zero, List.take_of_length_le (by simp at hlenML ⊢; omega),
    hml]

theorem mergeSortRec_stop (o : SortOrder) (l r : Nat) (P mid S : List ℤ)
    (anims : List SStep) (_hP : P.length = l) (hmid : l + mid.length = r + 1)
    (h : ¬ l < r) :
    (mergeSortRec o l r (P ++ (mid ++ S)) anims).1 =
      P ++ (canonicalSort o mid ++ S) := by
  rw [mergeSortRec, dif_neg h]
  rcases Nat.lt_or_ge l (r + 1) with hlr | hlr
  · have hone : mid.length = 1 := by omega
    match mid, hone with
    | [x], _ => rw [canonicalSort_singleton]
  · have hzero : mid.length = 0 := by omega
    match mid, hzero with
    | [], _ => rw [canonicalSort_nil]

theorem mergeSortRec_spec (o : SortOrder) :
    ∀ (sz l r : Nat), r - l ≤ sz →
      ∀ (P mid S : List ℤ) (anims : List SStep),
        P.length = l → l + mid.length = r + 1 →
        (mergeSortRec o l r (P ++ (mid ++ S)) anims).1 =
          P ++ (canonicalSort o mid ++ S) := by
  intro sz
  induction sz with
  | zero =>
      intro l r hsz P mid S anims hP hmid
      exact mergeSortRec_stop o l r P mid S anims hP hmid (by omega)
  | succ sz ih =>
      intro l r hsz P mid S anims hP hmid
      by_cases hlr : l < r
      · have hAB : mid = mid.take (l + (r - l) / 2 + 1 - l) ++
            mid.drop (l + (r - l) / 2 + 1 - l) :=
          (List.take_append_drop _ _).symm
        have hlenA : (mid.take (l + (r - l) / 2 + 1 - l)).length =
            l + (r - l) / 2 + 1 - l := by
          rw [List.length_take]
          omega
        have hlenB : (mid.drop (l + (r - l) / 2 + 1 - l)).length =
            r - (l + (r - l) / 2) := by
          rw [List.length_drop]
          omega
        rw [mergeSortRec, dif_pos hlr]
        simp only []
        set A := mid.take (l + (r - l) / 2 + 1 - l) with hAdef
        set B := mid.drop (l + (r - l) / 2 + 1 - l) with hBdef
        rw [show P ++ (mid ++ S) = P ++ (A ++ (B ++ S)) from by
          rw [hAB, List.append_assoc]]
        rw [ih l (l + (r - l) / 2) (by omega) P A (B ++ S) anims hP
          (by rw [hlenA]; omega)]
        rw [show P ++ (canonicalSort o A ++ (B ++ S)) =
          (P ++ canonicalSort o A) ++ (B ++ S) from
          (List.append_assoc _ _ _).symm]
        rw [ih (l + (r - l) / 2 + 1) r (by omega) (P ++ canonicalSort o A)
          B S _
          (by simp only [List.length_append, canonicalSort_length, hlenA]
              omega)
          (by rw [hlenB]; omega)]
        rw [List.append_assoc]
        rw [merge_spec o l (l + (r - l) / 2) r P (canonicalSort o A)
          (canonicalSort o B) S _ hP
          (by simp only [canonicalSort_length, hlenA]; omega)
          (by simp only [canonicalSort_length, hlenA, hlenB]; omega)]
        rw [canonicalSort_append_merge,
          show canonicalSort o (A ++ B) = canonicalSort o mid from by
            rw [← hAB]]
      · exact mergeSortRec_stop o l r P mid S anims hP hmid hlr

theorem mergeSort_finalArray (l : List ℤ) (o : SortOrder) :
    (mergeSort l o).finalArray = canonicalSort o l := by
  match l with
  | [] =>
      show (mergeSortRec o 0 (0 - 1) [] []).1 = canonicalSort o []
      rw [mergeSortRec, dif_neg (by omega)]
      rfl
  | a :: t =>
      have h := mergeSortRec_spec o t.length 0 t.length (by omega) []
        (a :: t) [] [] rfl (by simp)
      show (mergeSortRec o 0 ((a :: t).length - 1) (a :: t) []).1 =
        canonicalSort o (a :: t)
      simp only [List.length_cons, Nat.add_sub_cancel]
      simpa using h

/-! ### Quick sort (`quickSort`, `SortingVisualizer.js` lines 235-308)

Lomuto partition with the pivot at `arr[high]`.  The cursor `i` starts at
`low - 1`, so cursors are embedded as `ℤ` (array reads convert with
`Int.toNat`; every executed read is at a nonnegative in-bounds index). -/

def shouldPartition (o : SortOrder) (pivot element : ℤ) : Bool :=
  match o with
  | .ascending => element ≤ pivot
  | .descending => element ≥ pivot

theorem orel_of_shouldPartition {o : SortOrder} {pivot e : ℤ}
    (h : shouldPartition o pivot e = true) : orel o e pivot := by
  cases o <;> simp [shouldPartition] at h <;> simp [orel] <;> omega

theorem orel_of_not_shouldPartition {o : SortOrder} {pivot e : ℤ}
    (h : shouldPartition o pivot e = false) : orel o pivot e := by
  cases o <;> simp [shouldPartition] at h <;> simp [orel] <;> omega

def partitionLoop (o : SortOrder) (pivot : ℤ) (high : ℤ) :
    Nat → ℤ → ℤ → List ℤ → List SStep → List ℤ × List SStep × ℤ
  | 0, _, i, arr, anims => (arr, anims, i)
  | steps + 1, j, i, arr, anims =>
      if shouldPartition o pivot (arr.getD j.toNat 0) then
        partitionLoop o pivot high steps (j + 1) (i + 1)
          (swapList arr (i + 1).toNat j.toNat)
          (anims ++ [⟨.compare, [j, high]⟩, ⟨.swap, [i + 1, j]⟩,
            ⟨.reset_compare, [j, high]⟩])
      else
        partitionLoop o pivot high steps (j + 1) i arr
          (anims ++ [⟨.compare, [j, high]⟩, ⟨.reset_compare, [j, high]⟩])

def partitionFn (o : SortOrder) (arr : List ℤ) (low high : ℤ)
    (anims : List SStep) : List ℤ × List SStep × ℤ :=
  let pivot := arr.getD high.toNat 0
  let r := partitionLoop o pivot high (high - low).toNat low (low - 1) arr
    (anims ++ [⟨.mark_pivot, [high]⟩])
  (swapList r.1 (r.2.2 + 1).toNat high.toNat,
    r.2.1 ++ [⟨.swap, [r.2.2 + 1, high]⟩, ⟨.final_position, [r.2.2 + 1]⟩],
    r.2.2 + 1)

theorem partitionLoop_i_bounds (o : SortOrder) (pivot high : ℤ) :
    ∀ (steps : Nat) (j i : ℤ) (arr : List ℤ) (anims : List SStep),
      i ≤ (partitionLoop o pivot high steps j i arr anims).2.2 ∧
        (partitionLoop o pivot high steps j i arr anims).2.2 ≤ i + steps := by
  intro steps
  induction steps with
  | zero =>
      intro j i arr anims
      rw [partitionLoop]
      simp only []
      omega
  | succ steps ih =>
      intro j i arr anims
      rw [partitionLoop]
      by_cases h : shouldPartition o pivot (arr.getD j.toNat 0)
      · rw [if_pos h]
        have := ih (j + 1) (i + 1) (swapList arr (i + 1).toNat j.toNat)
          (anims ++ [⟨.compare, [j, high]⟩, ⟨.swap, [i + 1, j]⟩,
            ⟨.reset_compare, [j, high]⟩])
        omega
      · rw [if_neg h]
        have := ih (j + 1) i arr
          (anims ++ [⟨.compare, [j, high]⟩, ⟨.reset_compare, [j, high]⟩])
        omega

theorem partitionFn_pi_bounds (o : SortOrder) (arr : List ℤ) (low high : ℤ)
    (anims : List SStep) (h : low ≤ high) :
    low ≤ (partitionFn o arr low high anims).2.2 ∧
      (partitionFn o arr low high anims).2.2 ≤ high := by
  have hb := partitionLoop_i_bounds o (arr.getD high.toNat 0) high
    (high - low).toNat low (low - 1) arr
    (anims ++ [⟨.mark_pivot, [high]⟩])
  rw [partitionFn]
  simp only []
  omega

def quickSortRec (o : SortOrder) (low high : ℤ) (arr : List ℤ)
    (anims : List SStep) : List ℤ × List SStep :=
  if hlh : low < high then
    let p := partitionFn o arr low high anims
    let r1 := quickSortRec o low (p.2.2 - 1) p.1 p.2.1
    quickSortRec o (p.2.2 + 1) high r1.1 r1.2
  else (arr, anims)
termination_by (high + 1 - low).toNat
decreasing_by
  · have := partitionFn_pi_bounds o arr low high anims (by omega)
    omega
  · have := partitionFn_pi_bounds o arr low high anims (by omega)
    omega

def quickSort (array : List ℤ) (o : SortOrder) : SortResult :=
  let n := array.length
  let r := quickSortRec o 0 ((n : ℤ) - 1) array []
  ⟨r.2 ++ (List.range n).map (fun i => ⟨.final_position, [(i : ℤ)]⟩) ++
      [⟨.final_position, [(n : ℤ) - 1]⟩], r.1⟩


/-- Invariant of the Lomuto scan: `G` (elements accepted by
`shouldPartition`) sits right after the prefix `P`, `D` (rejected
elements) follows it, `U` is still unscanned, and the pivot value closes
the window.  The scan grows `G` and permutes `D ++ U` behind it. -/
theorem partitionLoop_spec (o : SortOrder) (pivot : ℤ) (high : ℤ) :
    ∀ (U P G D S : List ℤ) (anims : List SStep),
      (∀ x ∈ G, shouldPartition o pivot x = true) →
      (∀ x ∈ D, shouldPartition o pivot x = false) →
      ∃ G₂ D₂ anims₂,
        partitionLoop o pivot high U.length
            ((P.length : ℤ) + G.length + D.length)
            ((P.length : ℤ) + G.length - 1)
            (P ++ (G ++ (D ++ (U ++ (pivot :: S))))) anims =
          (P ++ ((G ++ G₂) ++ (D₂ ++ (pivot :: S))), anims₂,
            (P.length : ℤ) + G.length + G₂.length - 1) ∧
        (∀ x ∈ G₂, shouldPartition o pivot x = true) ∧
        (∀ x ∈ D₂, shouldPartition o pivot x = false) ∧
        (G₂ ++ D₂).Perm (D ++ U) := by
  intro U
  induction U with
  | nil =>
      intro P G D S anims hG hD
      refine ⟨[], D, anims, ?_, by simp, hD, by simp⟩
      simp only [List.length_nil]
      rw [partitionLoop]
      simp
  | cons u U ih =>
      intro P G D S anims hG hD
      simp only [List.length_cons, List.cons_append]
      rw [partitionLoop]
      have hget : (P ++ (G ++ (D ++ (u :: (U ++ pivot :: S))))).getD
          ((P.length : ℤ) + ↑G.length + ↑D.length).toNat 0 = u := by
        rw [show ((P.length : ℤ) + ↑G.length + ↑D.length).toNat =
          P.length + G.length + D.length from by omega]
        exact getD_concat_three P G D (U ++ pivot :: S) u
      rw [hget]
      by_cases h : shouldPartition o pivot u = true
      · rw [if_pos h]
        cases D with
        | nil =>
            simp only [List.length_nil, Nat.cast_zero, add_zero,
              List.nil_append]
            rw [show ((P.length : ℤ) + ↑G.length - 1 + 1).toNat =
                P.length + G.length from by omega,
              show ((P.length : ℤ) + ↑G.length).toNat =
                P.length + G.length from by omega,
              swapList_self]
            rw [show P ++ (G ++ u :: (U ++ pivot :: S)) =
                P ++ ((G ++ [u]) ++ (([] : List ℤ) ++ (U ++ pivot :: S)))
                from by simp]
            rw [show ((P.length : ℤ) + ↑G.length + 1) =
                ((P.length : ℤ) + ↑(G ++ [u]).length +
                  ↑([] : List ℤ).length) from by
                simp only [List.length_append, List.length_cons,
                  List.length_nil]
                omega,
              show ((P.length : ℤ) + ↑G.length - 1 + 1) =
                ((P.length : ℤ) + ↑(G ++ [u]).length - 1) from by
                simp only [List.length_append, List.length_cons,
                  List.length_nil]
                omega]
            obtain ⟨G₂, D₂, anims₂, e1, e2, e3, e4⟩ :=
              ih P (G ++ [u]) [] S _
                (by
                  intro x hx
                  rcases List.mem_append.mp hx with hx | hx
                  · exact hG x hx
                  · simp at hx
                    subst hx
                    exact h)
                (by simp)
            refine ⟨u :: G₂, D₂, anims₂, ?_, ?_, e3, ?_⟩
            · rw [e1]
              have h1 : P ++ (((G ++ [u]) ++ G₂) ++ (D₂ ++ pivot :: S)) =
                  P ++ ((G ++ u :: G₂) ++ (D₂ ++ pivot :: S)) := by simp
              have h2 : ((P.length : ℤ) + ↑(G ++ [u]).length +
                  ↑G₂.length - 1) =
                  ((P.length : ℤ) + ↑G.length + ↑(u :: G₂).length - 1) := by
                simp only [List.length_append, List.length_cons,
                  List.length_nil]
                omega
              rw [h1, h2]
            · intro x hx
              rcases List.mem_cons.mp hx with rfl | hx
              · exact h
              · exact e2 x hx
            · refine List.perm_iff_count.mpr ?_
              intro x
              have hc := List.perm_iff_count.mp e4 x
              simp [List.count_append, List.count_cons] at hc ⊢
              omega
        | cons d Dt =>
            simp only [List.length_cons, List.cons_append, Nat.cast_add,
              Nat.cast_one]
            have hswap : swapList
                (P ++ (G ++ d :: (Dt ++ u :: (U ++ pivot :: S))))
                ((P.length : ℤ) + ↑G.length - 1 + 1).toNat
                ((P.length : ℤ) + ↑G.length + (↑Dt.length + 1)).toNat =
                P ++ (G ++ u :: (Dt ++ d :: (U ++ pivot :: S))) := by
              rw [show ((P.length : ℤ) + ↑G.length - 1 + 1).toNat =
                  (P ++ G).length from by
                  simp only [List.length_append]
                  omega,
                show ((P.length : ℤ) + ↑G.length +
                    (↑Dt.length + 1)).toNat =
                  (P ++ G).length + (1 + Dt.length) from by
                  simp only [List.length_append]
                  omega]
              have hd := swapList_decomp (P ++ G) Dt (U ++ pivot :: S) d u
              simpa only [List.append_assoc] using hd
            rw [hswap]
            rw [show P ++ (G ++ u :: (Dt ++ d :: (U ++ pivot :: S))) =
                P ++ ((G ++ [u]) ++ ((Dt ++ [d]) ++ (U ++ pivot :: S)))
                from by simp]
            rw [show ((P.length : ℤ) + ↑G.length + (↑Dt.length + 1) + 1) =
                ((P.length : ℤ) + ↑(G ++ [u]).length +
                  ↑(Dt ++ [d]).length) from by
                simp only [List.length_append, List.length_cons,
                  List.length_nil]
                omega,
              show ((P.length : ℤ) + ↑G.length - 1 + 1) =
                ((P.length : ℤ) + ↑(G ++ [u]).length - 1) from by
                simp only [List.length_append, List.length_cons,
                  List.length_nil]
                omega]
            obtain ⟨G₂, D₂, anims₂, e1, e2, e3, e4⟩ :=
              ih P (G ++ [u]) (Dt ++ [d]) S _
                (by
                  intro x hx
                  rcases List.mem_append.mp hx with hx | hx
                  · exact hG x hx
                  · simp at hx
                    subst hx
                    exact h)
                (by
                  intro x hx
                  rcases List.mem_append.mp hx with hx | hx
                  · exact hD x (List.mem_cons_of_mem d hx)
                  · simp at hx
                    rw [hx]
                    exact hD d (List.mem_cons_self d Dt))
            refine ⟨u :: G₂, D₂, anims₂, ?_, ?_, e3, ?_⟩
            · rw [e1]
              have h1 : P ++ (((G ++ [u]) ++ G₂) ++ (D₂ ++ pivot :: S)) =
                  P ++ ((G ++ u :: G₂) ++ (D₂ ++ pivot :: S)) := by simp
              have h2 : ((P.length : ℤ) + ↑(G ++ [u]).length +
                  ↑G₂.length - 1) =
                  ((P.length : ℤ) + ↑G.length + ↑(u :: G₂).length - 1) := by
                simp only [List.length_append, List.length_cons,
                  List.length_nil]
                omega
              rw [h1, h2]
            · intro x hx
              rcases List.mem_cons.mp hx with rfl | hx
              · exact h
              · exact e2 x hx
            · refine List.perm_iff_count.mpr ?_
              intro x
              have hc := List.perm_iff_count.mp e4 x
              simp [List.count_append, List.count_cons] at hc ⊢
              omega
      · rw [if_neg h]
        rw [show P ++ (G ++ (D ++ u :: (U ++ pivot :: S))) =
            P ++ (G ++ ((D ++ [u]) ++ (U ++ pivot :: S))) from by simp]
        rw [show ((P.length : ℤ) + ↑G.length + ↑D.length + 1) =
            ((P.length : ℤ) + ↑G.length + ↑(D ++ [u]).length) from by
            simp only [List.length_append, List.length_cons,
              List.length_nil]
            omega]
        obtain ⟨G₂, D₂, anims₂, e1, e2, e3, e4⟩ :=
          ih P G (D ++ [u]) S _
            hG
            (by
              intro x hx
              rcases List.mem_append.mp hx with hx | hx
              · exact hD x hx
              · simp at hx
                subst hx
                simpa using h)
        refine ⟨G₂, D₂, anims₂, e1, e2, e3, ?_⟩
        refine List.perm_iff_count.mpr ?_
        intro x
        have hc := List.perm_iff_count.mp e4 x
        simp [List.count_append, List.count_cons] at hc ⊢
        omega

/-- After `partition` the window is `small ++ pivot :: big`: the pivot
lands between the accepted and rejected elements, and the returned index
points at the pivot. -/
theorem partitionFn_spec (o : SortOrder) (P B S : List ℤ) (pv : ℤ)
    (anims : List SStep) :
    ∃ Sm Bg anims₂,
      partitionFn o (P ++ (B ++ (pv :: S))) (P.length : ℤ)
          ((P.length : ℤ) + B.length) anims =
        (P ++ (Sm ++ (pv :: (Bg ++ S))), anims₂,
          (P.length : ℤ) + Sm.length) ∧
      (∀ x ∈ Sm, shouldPartition o pv x = true) ∧
      (∀ x ∈ Bg, shouldPartition o pv x = false) ∧
      (Sm ++ Bg).Perm B := by
  have hpv : (P ++ (B ++ (pv :: S))).getD
      ((P.length : ℤ) + ↑B.length).toNat 0 = pv := by
    rw [show ((P.length : ℤ) + ↑B.length).toNat =
      P.length + B.length from by omega]
    have h := getD_concat_three P B [] S pv
    simpa using h
  obtain ⟨G₂, D₂, anims₂, e1, e2, e3, e4⟩ :=
    partitionLoop_spec o pv ((P.length : ℤ) + ↑B.length) B P [] [] S
      (anims ++ [⟨.mark_pivot, [(P.length : ℤ) + ↑B.length]⟩])
      (by simp) (by simp)
  simp only [List.length_nil, Nat.cast_zero, add_zero, List.nil_append]
    at e1
  have hlen : G₂.length + D₂.length = B.length := by
    have h := e4.length_eq
    simpa using h
  rw [partitionFn]
  rw [hpv,
    show (((P.length : ℤ) + ↑B.length) - (P.length : ℤ)).toNat =
      B.length from by omega,
    e1]
  simp only []
  cases D₂ with
  | nil =>
      simp only [List.nil_append] at e4 ⊢
      simp only [List.length_nil, Nat.add_zero] at hlen
      rw [show ((P.length : ℤ) + ↑G₂.length - 1 + 1).toNat =
          P.length + G₂.length from by omega,
        show ((P.length : ℤ) + ↑B.length).toNat =
          P.length + G₂.length from by omega,
        swapList_self]
      rw [show P ++ (G₂ ++ pv :: S) =
          P ++ (G₂ ++ (pv :: (([] : List ℤ) ++ S))) from by simp,
        show ((P.length : ℤ) + ↑G₂.length - 1 + 1) =
          ((P.length : ℤ) + ↑G₂.length) from by omega]
      exact ⟨G₂, [], _, rfl, e2, by simp, by simpa using e4⟩
  | cons d Dt =>
      simp only [List.cons_append] at e4 ⊢
      simp only [List.length_cons] at hlen
      have hswap : swapList (P ++ (G₂ ++ d :: (Dt ++ pv :: S)))
          ((P.length : ℤ) + ↑G₂.length - 1 + 1).toNat
          ((P.length : ℤ) + ↑B.length).toNat =
          P ++ (G₂ ++ pv :: (Dt ++ d :: S)) := by
        rw [show ((P.length : ℤ) + ↑G₂.length - 1 + 1).toNat =
            (P ++ G₂).length from by
            simp only [List.length_append]
            omega,
          show ((P.length : ℤ) + ↑B.length).toNat =
            (P ++ G₂).length + (1 + Dt.length) from by
            simp only [List.length_append]
            omega]
        have hd := swapList_decomp (P ++ G₂) Dt S d pv
        simpa only [List.append_assoc] using hd
      rw [hswap]
      rw [show P ++ (G₂ ++ pv :: (Dt ++ d :: S)) =
          P ++ (G₂ ++ (pv :: ((Dt ++ [d]) ++ S))) from by simp,
        show ((P.length : ℤ) + ↑G₂.length - 1 + 1) =
          ((P.length : ℤ) + ↑G₂.length) from by omega]
      refine ⟨G₂, Dt ++ [d], _, rfl, e2, ?_, ?_⟩
      · intro x hx
        rcases List.mem_append.mp hx with hx | hx
        · exact e3 x (List.mem_cons_of_mem d hx)
        · simp at hx
          rw [hx]
          exact e3 d (List.mem_cons_self d Dt)
      · refine List.perm_iff_count.mpr ?_
        intro x
        have hc := List.perm_iff_count.mp e4 x
        simp [List.count_append, List.count_cons] at hc ⊢
        omega

/-- Concatenating the sorted small side, the pivot and the sorted big
side yields a sorted list. -/
theorem sorted_sandwich (o : SortOrder) (A B : List ℤ) (pv : ℤ)
    (hA : List.Sorted (orel o) A) (hB : List.Sorted (orel o) B)
    (hApv : ∀ x ∈ A, orel o x pv) (hpvB : ∀ x ∈ B, orel o pv x) :
    List.Sorted (orel o) (A ++ pv :: B) := by
  rw [List.Sorted, List.pairwise_append]
  refine ⟨hA, ?_, ?_⟩
  · rw [List.pairwise_cons]
    exact ⟨hpvB, hB⟩
  · intro a ha b hb
    rcases List.mem_cons.mp hb with rfl | hb
    · exact hApv a ha
    · exact orel_trans (hApv a ha) (hpvB b hb)

/-- Quicksort recursion: sorting the window `mid` sitting between `P` and
`S` rewrites it to its canonical sort and leaves the rest untouched. -/
theorem quickSortRec_spec (o : SortOrder) :
    ∀ (sz : Nat) (mid P S : List ℤ) (anims : List SStep),
      mid.length ≤ sz →
      (quickSortRec o (P.length : ℤ) ((P.length : ℤ) + ↑mid.length - 1)
          (P ++ (mid ++ S)) anims).1 = P ++ (canonicalSort o mid ++ S) := by
  intro sz
  induction sz with
  | zero =>
      intro mid P S anims hsz
      have hmid : mid = [] := List.eq_nil_of_length_eq_zero (by omega)
      subst hmid
      rw [quickSortRec,
        dif_neg (show ¬((P.length : ℤ) <
            (P.length : ℤ) + ↑([] : List ℤ).length - 1) from by
          simp only [List.length_nil, Nat.cast_zero, add_zero]
          omega)]
      simp [canonicalSort_nil]
  | succ sz ih =>
      intro mid P S anims hsz
      by_cases hone : mid.length ≤ 1
      · rw [quickSortRec, dif_neg (by omega)]
        rcases mid with _ | ⟨x, _ | ⟨y, t⟩⟩
        · simp [canonicalSort_nil]
        · simp [canonicalSort_singleton]
        · simp at hone
      · rcases List.eq_nil_or_concat mid with rfl | ⟨B, pv, rfl⟩
        · simp at hone
        · simp only [List.concat_eq_append] at hsz hone ⊢
          have hB : 1 ≤ B.length := by
            simp only [List.length_append, List.length_cons,
              List.length_nil] at hone
            omega
          have hBsz : B.length ≤ sz := by
            simp only [List.length_append, List.length_cons,
              List.length_nil] at hsz
            omega
          rw [show P ++ ((B ++ [pv]) ++ S) = P ++ (B ++ (pv :: S))
              from by simp,
            show ((P.length : ℤ) + ↑(B ++ [pv]).length - 1) =
              ((P.length : ℤ) + ↑B.length) from by
              simp only [List.length_append, List.length_cons,
                List.length_nil]
              omega]
          rw [quickSortRec, dif_pos (show (P.length : ℤ) <
            (P.length : ℤ) + ↑B.length from by omega)]
          simp only []
          obtain ⟨Sm, Bg, anims₂, e1, e2, e3, e4⟩ :=
            partitionFn_spec o P B S pv anims
          have hlenSB : Sm.length + Bg.length = B.length := by
            have h := e4.length_eq
            simpa using h
          rw [e1]
          simp only []
          rw [ih Sm P (pv :: (Bg ++ S)) anims₂ (by omega)]
          rw [show P ++ (canonicalSort o Sm ++ (pv :: (Bg ++ S))) =
              (P ++ (canonicalSort o Sm ++ [pv])) ++ (Bg ++ S)
              from by simp,
            show ((P.length : ℤ) + ↑Sm.length + 1) =
              (((P ++ (canonicalSort o Sm ++ [pv])).length : ℤ))
              from by
              simp only [List.length_append, List.length_cons,
                List.length_nil, canonicalSort_length]
              omega,
            show ((P.length : ℤ) + ↑B.length) =
              (((P ++ (canonicalSort o Sm ++ [pv])).length : ℤ)) +
                ↑Bg.length - 1 from by
              simp only [List.length_append, List.length_cons,
                List.length_nil, canonicalSort_length]
              omega]
          rw [ih Bg (P ++ (canonicalSort o Sm ++ [pv])) S _ (by omega)]
          have hglue : canonicalSort o Sm ++ (pv :: canonicalSort o Bg) =
              canonicalSort o (B ++ [pv]) := by
            refine eq_canonicalSort_of_sorted_of_perm ?_ ?_
            · refine List.perm_iff_count.mpr ?_
              intro x
              have h1 := List.perm_iff_count.mp (canonicalSort_perm o Sm) x
              have h2 := List.perm_iff_count.mp (canonicalSort_perm o Bg) x
              have h3 := List.perm_iff_count.mp e4 x
              simp [List.count_append, List.count_cons] at h3 ⊢
              omega
            · refine sorted_sandwich o _ _ pv (canonicalSort_sorted o Sm)
                (canonicalSort_sorted o Bg) ?_ ?_
              · intro x hx
                exact orel_of_shouldPartition
                  (e2 x ((canonicalSort_perm o Sm).mem_iff.mp hx))
              · intro x hx
                exact orel_of_not_shouldPartition
                  (e3 x ((canonicalSort_perm o Bg).mem_iff.mp hx))
          rw [← hglue]
          simp

theorem quickSort_finalArray (array : List ℤ) (o : SortOrder) :
    (quickSort array o).finalArray = canonicalSort o array := by
  rw [quickSort]
  simp only []
  have h := quickSortRec_spec o array.length array [] [] []
    (le_refl _)
  simp only [List.length_nil, Nat.cast_zero, zero_add, List.nil_append,
    List.append_nil] at h
  exact h

def shouldHeapify (o : SortOrder) (a b : ℤ) : Bool :=
  match o with
  | .ascending => a > b
  | .descending => a < b

theorem orel_of_shouldHeapify {o : SortOrder} {a b : ℤ}
    (h : shouldHeapify o a b = true) : orel o b a := by
  cases o <;> simp [shouldHeapify] at h <;> simp [orel] <;> omega

theorem orel_of_not_shouldHeapify {o : SortOrder} {a b : ℤ}
    (h : shouldHeapify o a b = false) : orel o a b := by
  cases o <;> simp [shouldHeapify] at h <;> simp [orel] <;> omega

def largestIdx (o : SortOrder) (arr : List ℤ) (n i : Nat) : Nat :=
  let l := 2 * i + 1
  let r := 2 * i + 2
  let largest :=
    if l < n ∧ shouldHeapify o (arr.getD l 0) (arr.getD i 0) = true
    then l else i
  if r < n ∧ shouldHeapify o (arr.getD r 0) (arr.getD largest 0) = true
  then r else largest

theorem largestIdx_cases (o : SortOrder) (arr : List ℤ) (n i : Nat) :
    largestIdx o arr n i = i ∨
      (i < largestIdx o arr n i ∧ largestIdx o arr n i < n) := by
  unfold largestIdx
  simp only []
  split_ifs <;> omega

theorem largestIdx_mem (o : SortOrder) (arr : List ℤ) (n i : Nat) :
    largestIdx o arr n i = i ∨ largestIdx o arr n i = 2 * i + 1 ∨
      largestIdx o arr n i = 2 * i + 2 := by
  unfold largestIdx
  simp only []
  split_ifs <;> omega

theorem largestIdx_dom (o : SortOrder) (arr : List ℤ) (n i : Nat) :
    orel o (arr.getD i 0) (arr.getD (largestIdx o arr n i) 0) ∧
    (2 * i + 1 < n → orel o (arr.getD (2 * i + 1) 0)
      (arr.getD (largestIdx o arr n i) 0)) ∧
    (2 * i + 2 < n → orel o (arr.getD (2 * i + 2) 0)
      (arr.getD (largestIdx o arr n i) 0)) := by
  have hneg : ∀ (c : Nat) (x y : ℤ),
      ¬(c < n ∧ shouldHeapify o x y = true) → c < n →
        shouldHeapify o x y = false := by
    intro c x y hcb hc
    cases hb : shouldHeapify o x y
    · rfl
    · exact absurd ⟨hc, hb⟩ hcb
  unfold largestIdx
  simp only []
  split_ifs with h1 h2 h3
  · refine ⟨orel_trans (orel_of_shouldHeapify h1.2)
      (orel_of_shouldHeapify h2.2), fun _ => orel_of_shouldHeapify h2.2,
      fun _ => orel_refl o _⟩
  · refine ⟨orel_of_shouldHeapify h1.2, fun _ => orel_refl o _, ?_⟩
    intro hr
    exact orel_trans (orel_of_not_shouldHeapify (hneg _ _ _ h2 hr))
      (orel_refl o _)
  · refine ⟨orel_of_shouldHeapify h3.2, ?_, fun _ => orel_refl o _⟩
    intro hl
    exact orel_trans (orel_of_not_shouldHeapify (hneg _ _ _ h1 hl))
      (orel_of_shouldHeapify h3.2)
  · refine ⟨orel_refl o _, ?_, ?_⟩
    · intro hl
      exact orel_of_not_shouldHeapify (hneg _ _ _ h1 hl)
    · intro hr
      exact orel_of_not_shouldHeapify (hneg _ _ _ h3 hr)

def heapify (o : SortOrder) (n : Nat) (i : Nat) (arr : List ℤ)
    (anims : List SStep) : List ℤ × List SStep :=
  let largest := largestIdx o arr n i
  if h : largest ≠ i then
    heapify o n largest (swapList arr i largest)
      (anims ++ [⟨.compare, [(i : ℤ), (largest : ℤ)]⟩,
        ⟨.swap, [(i : ℤ), (largest : ℤ)]⟩])
  else (arr, anims)
termination_by n - i
decreasing_by
  rcases largestIdx_cases o arr n i with hc | hc
  · exact absurd hc h
  · omega

def buildLoop (o : SortOrder) (n : Nat) :
    Nat → List ℤ → List SStep → List ℤ × List SStep
  | 0, arr, anims => (arr, anims)
  | k + 1, arr, anims =>
      let r := heapify o n k arr anims
      buildLoop o n k r.1 r.2

def extractLoop (o : SortOrder) :
    Nat → List ℤ → List SStep → List ℤ × List SStep
  | 0, arr, anims => (arr, anims)
  | k + 1, arr, anims =>
      let r := heapify o (k + 1) 0 (swapList arr 0 (k + 1))
        (anims ++ [⟨.swap, [(0 : ℤ), ((k + 1 : Nat) : ℤ)]⟩,
          ⟨.final_position, [((k + 1 : Nat) : ℤ)]⟩])
      extractLoop o k r.1 r.2

def heapSort (array : List ℤ) (o : SortOrder) : SortResult :=
  let n := array.length
  let b := buildLoop o n (n / 2) array []
  let e := extractLoop o (n - 1) b.1 b.2
  ⟨e.2 ++ [⟨.final_position, [0]⟩], e.1⟩

/-- `isDesc i j` holds when the heap position `j` lies in the subtree
rooted at position `i` (parent of `j` is `(j - 1) / 2`). -/
def isDesc (i : Nat) (j : Nat) : Bool :=
  if j = i then true
  else if _h : j = 0 then false
  else isDesc i ((j - 1) / 2)
termination_by j
decreasing_by omega

theorem isDesc_self (i : Nat) : isDesc i i = true := by
  rw [isDesc]
  simp

theorem isDesc_le (i : Nat) : ∀ j, isDesc i j = true → i ≤ j := by
  intro j
  induction j using Nat.strong_induction_on with
  | _ j ih =>
      intro h
      rw [isDesc] at h
      by_cases hji : j = i
      · omega
      · rw [if_neg hji] at h
        by_cases hj0 : j = 0
        · rw [dif_pos hj0] at h
          exact absurd h (by simp)
        · rw [dif_neg hj0] at h
          have := ih ((j - 1) / 2) (by omega) h
          omega

theorem isDesc_parent {i j : Nat} (h : isDesc i j = true) (hne : j ≠ i) :
    isDesc i ((j - 1) / 2) = true ∧ j ≠ 0 := by
  rw [isDesc, if_neg hne] at h
  by_cases hj0 : j = 0
  · rw [dif_pos hj0] at h
    exact absurd h (by simp)
  · rw [dif_neg hj0] at h
    exact ⟨h, hj0⟩

theorem isDesc_of_lt {i j : Nat} (h : j < i) : isDesc i j = false := by
  cases hb : isDesc i j
  · rfl
  · have := isDesc_le i j hb
    omega

theorem isDesc_trans (i c : Nat) :
    ∀ m, isDesc c m = true → isDesc i c = true → isDesc i m = true := by
  intro m
  induction m using Nat.strong_induction_on with
  | _ m ih =>
      intro hcm hic
      by_cases hmc : m = c
      · rw [hmc]
        exact hic
      · obtain ⟨hp, hm0⟩ := isDesc_parent hcm hmc
        have hrec := ih ((m - 1) / 2) (by omega) hp hic
        rw [isDesc]
        by_cases hmi : m = i
        · simp [hmi]
        · rw [if_neg hmi, dif_neg hm0]
          exact hrec

theorem isDesc_child_left (i : Nat) : isDesc i (2 * i + 1) = true := by
  rw [isDesc, if_neg (by omega), dif_neg (by omega)]
  rw [show (2 * i + 1 - 1) / 2 = i from by omega]
  exact isDesc_self i

theorem isDesc_child_right (i : Nat) : isDesc i (2 * i + 2) = true := by
  rw [isDesc, if_neg (by omega), dif_neg (by omega)]
  rw [show (2 * i + 2 - 1) / 2 = i from by omega]
  exact isDesc_self i

theorem isDesc_zero : ∀ j, isDesc 0 j = true := by
  intro j
  induction j using Nat.strong_induction_on with
  | _ j ih =>
      by_cases hj0 : j = 0
      · rw [hj0]
        exact isDesc_self 0
      · rw [isDesc, if_neg hj0, dif_neg hj0]
        exact ih ((j - 1) / 2) (by omega)

/-- Every value in the subtree rooted at `c` is dominated by the root of
that subtree, provided every parent-child pair inside the subtree
respects the order. -/
theorem subtree_bound (o : SortOrder) (arr : List ℤ) (n : Nat) (c : Nat)
    (H : ∀ j, 0 < j → j < n → isDesc c ((j - 1) / 2) = true →
      orel o (arr.getD j 0) (arr.getD ((j - 1) / 2) 0)) :
    ∀ m, m < n → isDesc c m = true →
      orel o (arr.getD m 0) (arr.getD c 0) := by
  intro m
  induction m using Nat.strong_induction_on with
  | _ m ih =>
      intro hm hdesc
      by_cases hmc : m = c
      · rw [hmc]
        exact orel_refl o _
      · obtain ⟨hp, hm0⟩ := isDesc_parent hdesc hmc
        have h1 : orel o (arr.getD m 0) (arr.getD ((m - 1) / 2) 0) :=
          H m (by omega) hm hp
        have h2 : orel o (arr.getD ((m - 1) / 2) 0) (arr.getD c 0) :=
          ih ((m - 1) / 2) (by omega) (by omega) hp
        exact orel_trans h1 h2

/-- Full specification of `heapify` at root `i`: it keeps the length, is
a permutation, changes only descendants of `i` below `n`, preserves any
upper bound of the subtree values, and restores the heap property on
every parent-child pair whose parent is at or below the subtree rooted
at `i`, assuming pairs with deeper parents were already fine. -/
theorem heapify_spec (o : SortOrder) (n : Nat) :
    ∀ (sz i : Nat) (arr : List ℤ) (anims : List SStep),
      n - i ≤ sz → n ≤ arr.length →
      (∀ j, 0 < j → j < n → i < (j - 1) / 2 →
        orel o (arr.getD j 0) (arr.getD ((j - 1) / 2) 0)) →
      ((heapify o n i arr anims).1.length = arr.length ∧
       (heapify o n i arr anims).1.Perm arr ∧
       (∀ k, isDesc i k = false ∨ n ≤ k →
         (heapify o n i arr anims).1.getD k 0 = arr.getD k 0) ∧
       (∀ b : ℤ, (∀ k, k < n → isDesc i k = true →
           orel o (arr.getD k 0) b) →
         ∀ k, k < n → isDesc i k = true →
           orel o ((heapify o n i arr anims).1.getD k 0) b) ∧
       (∀ j, 0 < j → j < n → i ≤ (j - 1) / 2 →
         orel o ((heapify o n i arr anims).1.getD j 0)
           ((heapify o n i arr anims).1.getD ((j - 1) / 2) 0))) := by
  intro sz
  induction sz with
  | zero =>
      intro i arr anims hsz hn H1
      have hL : largestIdx o arr n i = i := by
        rcases largestIdx_cases o arr n i with h | h
        · exact h
        · omega
      rw [heapify]
      rw [dif_neg (by rw [hL]; simp)]
      refine ⟨rfl, List.Perm.refl _, fun k _ => rfl, fun b hb => hb, ?_⟩
      intro j hj0 hjn hip
      omega
  | succ sz ih =>
      intro i arr anims hsz hn H1
      by_cases hL : largestIdx o arr n i = i
      · rw [heapify]
        rw [dif_neg (by rw [hL]; simp)]
        refine ⟨rfl, List.Perm.refl _, fun k _ => rfl, fun b hb => hb, ?_⟩
        intro j hj0 hjn hip
        by_cases hpi : (j - 1) / 2 = i
        · have hdom := largestIdx_dom o arr n i
          rw [hL] at hdom
          have hj12 : j = 2 * i + 1 ∨ j = 2 * i + 2 := by omega
          rcases hj12 with hj | hj
          · rw [hpi, hj]
            exact hdom.2.1 (by omega)
          · rw [hpi, hj]
            exact hdom.2.2 (by omega)
        · exact H1 j hj0 hjn (by omega)
      · set L := largestIdx o arr n i with hLdef
        have hcases := largestIdx_cases o arr n i
        rw [← hLdef] at hcases
        have hiL : i < L ∧ L < n := by
          rcases hcases with h | h
          · exact absurd h hL
          · exact h
        have hmem := largestIdx_mem o arr n i
        rw [← hLdef] at hmem
        have hdom := largestIdx_dom o arr n i
        rw [← hLdef] at hdom
        set arr2 := swapList arr i L with harr2
        have hlen2 : arr2.length = arr.length := by
          rw [harr2]
          exact swapList_length arr i L
        have f1 : arr2.getD i 0 = arr.getD L 0 := by
          rw [harr2]
          exact getD_swapList_fst arr i L (by omega) (by omega)
        have f2 : arr2.getD L 0 = arr.getD i 0 := by
          rw [harr2]
          exact getD_swapList_snd arr i L (by omega)
        have f3 : ∀ k, i ≠ k → L ≠ k → arr2.getD k 0 = arr.getD k 0 := by
          intro k h1 h2
          rw [harr2]
          exact getD_swapList_other arr i L k h1 h2
        have hdLi : isDesc L i = false := isDesc_of_lt hiL.1
        have hdiL : isDesc i L = true := by
          rcases hmem with h | h | h
          · exact absurd h hL
          · rw [h]
            exact isDesc_child_left i
          · rw [h]
            exact isDesc_child_right i
        have H1L : ∀ j, 0 < j → j < n → L < (j - 1) / 2 →
            orel o (arr2.getD j 0) (arr2.getD ((j - 1) / 2) 0) := by
          intro j hj0 hjn hLp
          rw [f3 j (by omega) (by omega),
            f3 ((j - 1) / 2) (by omega) (by omega)]
          exact H1 j hj0 hjn (by omega)
        obtain ⟨ihlen, ihperm, ihframe, ihub, ihheap⟩ :=
          ih L arr2
            (anims ++ [⟨.compare, [(i : ℤ), (L : ℤ)]⟩,
              ⟨.swap, [(i : ℤ), (L : ℤ)]⟩])
            (by omega) (by rw [hlen2]; exact hn) H1L
        have hH : ∀ j', 0 < j' → j' < n →
            isDesc L ((j' - 1) / 2) = true →
            orel o (arr.getD j' 0) (arr.getD ((j' - 1) / 2) 0) := by
          intro j' h0 hn' hd
          have := isDesc_le L ((j' - 1) / 2) hd
          exact H1 j' h0 hn' (by omega)
        have hbnd : ∀ m, m < n → isDesc L m = true →
            orel o (arr2.getD m 0) (arr.getD L 0) := by
          intro m hm hdm
          by_cases hmL : m = L
          · rw [hmL, f2]
            exact hdom.1
          · rw [f3 m (by have := isDesc_le L m hdm; omega) (Ne.symm hmL)]
            exact subtree_bound o arr n L hH m hm hdm
        rw [heapify]
        rw [← hLdef, ← harr2, dif_pos hL]
        refine ⟨?_, ?_, ?_, ?_, ?_⟩
        · rw [ihlen, hlen2]
        · exact ihperm.trans (by
            rw [harr2]
            exact swapList_perm arr i L (by omega) (by omega))
        · intro k hk
          rcases hk with hk | hk
          · have hki : i ≠ k := by
              intro he
              rw [← he, isDesc_self] at hk
              simp at hk
            have hkL2 : L ≠ k := by
              intro he
              rw [← he, hdiL] at hk
              simp at hk
            have hkL : isDesc L k = false := by
              cases hb2 : isDesc L k
              · rfl
              · rw [isDesc_trans i L k hb2 hdiL] at hk
                simp at hk
            rw [ihframe k (Or.inl hkL)]
            exact f3 k hki hkL2
          · rw [ihframe k (Or.inr hk)]
            exact f3 k (by omega) (by omega)
        · intro b hb k hk hdesc
          by_cases hdk : isDesc L k = true
          · refine ihub b ?_ k hk hdk
            intro m hm hdm
            by_cases hmL : m = L
            · rw [hmL, f2]
              exact hb i (by omega) (isDesc_self i)
            · rw [f3 m (by have := isDesc_le L m hdm; omega)
                (Ne.symm hmL)]
              exact hb m hm (isDesc_trans i L m hdm hdiL)
          · have hkL : isDesc L k = false := by simpa using hdk
            rw [ihframe k (Or.inl hkL)]
            by_cases hki : k = i
            · rw [hki, f1]
              exact hb L (by omega) hdiL
            · rw [f3 k (Ne.symm hki)
                (fun he => hdk (by rw [← he]; exact isDesc_self L))]
              exact hb k hk hdesc
        · intro j hj0 hjn hip
          rcases Nat.lt_or_ge ((j - 1) / 2) L with hpL | hpL
          · by_cases hpi : (j - 1) / 2 = i
            · have hi_val : (heapify o n L arr2
                  (anims ++ [⟨.compare, [(i : ℤ), (L : ℤ)]⟩,
                    ⟨.swap, [(i : ℤ), (L : ℤ)]⟩])).1.getD i 0 =
                  arr.getD L 0 := by
                rw [ihframe i (Or.inl hdLi), f1]
              by_cases hjL : j = L
              · rw [hpi, hjL, hi_val]
                exact ihub (arr.getD L 0) hbnd L hiL.2 (isDesc_self L)
              · have hdLj : isDesc L j = false := by
                  cases hb2 : isDesc L j
                  · rfl
                  · obtain ⟨hp', _⟩ := isDesc_parent hb2 hjL
                    rw [hpi, hdLi] at hp'
                    simp at hp'
                rw [hpi, hi_val, ihframe j (Or.inl hdLj),
                  f3 j (by omega) (Ne.symm hjL)]
                have hj12 : j = 2 * i + 1 ∨ j = 2 * i + 2 := by omega
                rcases hj12 with hj | hj
                · rw [hj]
                  exact hdom.2.1 (by omega)
                · rw [hj]
                  exact hdom.2.2 (by omega)
            · have hjL : L < j := by
                rcases hmem with h | h | h
                · exact absurd h hL
                · omega
                · omega
              have hdLp : isDesc L ((j - 1) / 2) = false :=
                isDesc_of_lt hpL
              have hdLj : isDesc L j = false := by
                cases hb2 : isDesc L j
                · rfl
                · obtain ⟨hp', _⟩ := isDesc_parent hb2 (by omega)
                  rw [hdLp] at hp'
                  simp at hp'
              rw [ihframe j (Or.inl hdLj),
                ihframe ((j - 1) / 2) (Or.inl hdLp),
                f3 j (by omega) (by omega),
                f3 ((j - 1) / 2) (by omega) (by omega)]
              exact H1 j hj0 hjn (by omega)
          · exact ihheap j hj0 hjn hpL

/-- The build phase turns the whole array into a heap. -/
theorem buildLoop_spec (o : SortOrder) (n : Nat) :
    ∀ (k : Nat) (arr : List ℤ) (anims : List SStep),
      n = arr.length →
      (∀ j, 0 < j → j < n → k ≤ (j - 1) / 2 →
        orel o (arr.getD j 0) (arr.getD ((j - 1) / 2) 0)) →
      ((buildLoop o n k arr anims).1.length = arr.length ∧
       (buildLoop o n k arr anims).1.Perm arr ∧
       (∀ j, 0 < j → j < n →
         orel o ((buildLoop o n k arr anims).1.getD j 0)
           ((buildLoop o n k arr anims).1.getD ((j - 1) / 2) 0))) := by
  intro k
  induction k with
  | zero =>
      intro arr anims hlen hinv
      rw [buildLoop]
      exact ⟨rfl, List.Perm.refl _,
        fun j h1 h2 => hinv j h1 h2 (Nat.zero_le _)⟩
  | succ k ihk =>
      intro arr anims hlen hinv
      obtain ⟨hplen, hpperm, hpframe, hpub, hpheap⟩ :=
        heapify_spec o n n k arr anims (by omega) (by omega)
          (fun j h1 h2 h3 => hinv j h1 h2 (by omega))
      rw [buildLoop]
      obtain ⟨blen, bperm, bheap⟩ :=
        ihk (heapify o n k arr anims).1 (heapify o n k arr anims).2
          (by rw [hplen]; exact hlen)
          (fun j h1 h2 _ => hpheap j h1 h2 (by omega))
      exact ⟨by rw [blen, hplen], bperm.trans hpperm, bheap⟩

/-- The extraction phase of heap sort sorts the array, given that it
starts as a heap on the first `k + 1` positions with an already-sorted,
dominating suffix. -/
theorem extractLoop_spec (o : SortOrder) :
    ∀ (k : Nat) (arr : List ℤ) (anims : List SStep),
      k + 1 ≤ arr.length →
      (∀ j, 0 < j → j < k + 1 →
        orel o (arr.getD j 0) (arr.getD ((j - 1) / 2) 0)) →
      (∀ p q, k + 1 ≤ p → p < q → q < arr.length →
        orel o (arr.getD p 0) (arr.getD q 0)) →
      (∀ p q, p < k + 1 → k + 1 ≤ q → q < arr.length →
        orel o (arr.getD p 0) (arr.getD q 0)) →
      ((extractLoop o k arr anims).1.length = arr.length ∧
       (extractLoop o k arr anims).1.Perm arr ∧
       (∀ p q, p < q → q < arr.length →
         orel o ((extractLoop o k arr anims).1.getD p 0)
           ((extractLoop o k arr anims).1.getD q 0))) := by
  intro k
  induction k with
  | zero =>
      intro arr anims hlen hheap hsuf hdom
      rw [extractLoop]
      refine ⟨rfl, List.Perm.refl _, ?_⟩
      intro p q hpq hq
      by_cases hp : p = 0
      · subst hp
        exact hdom 0 q (by omega) (by omega) hq
      · exact hsuf p q (by omega) hpq hq
  | succ k ihk =>
      intro arr anims hlen hheap hsuf hdom
      have hroot : ∀ m, m < k + 2 →
          orel o (arr.getD m 0) (arr.getD 0 0) := by
        intro m hm
        exact subtree_bound o arr (k + 2) 0
          (fun j h1 h2 _ => hheap j h1 h2) m hm (isDesc_zero m)
      have hlen2 : (swapList arr 0 (k + 1)).length = arr.length :=
        swapList_length arr 0 (k + 1)
      have g1 : (swapList arr 0 (k + 1)).getD 0 0 =
          arr.getD (k + 1) 0 :=
        getD_swapList_fst arr 0 (k + 1) (by omega) (by omega)
      have g2 : (swapList arr 0 (k + 1)).getD (k + 1) 0 =
          arr.getD 0 0 :=
        getD_swapList_snd arr 0 (k + 1) (by omega)
      have g3 : ∀ m, 0 ≠ m → k + 1 ≠ m →
          (swapList arr 0 (k + 1)).getD m 0 = arr.getD m 0 :=
        fun m => getD_swapList_other arr 0 (k + 1) m
      obtain ⟨elen, eperm, eframe, eub, eheap⟩ :=
        heapify_spec o (k + 1) (k + 1) 0 (swapList arr 0 (k + 1))
          (anims ++ [⟨.swap, [(0 : ℤ), ((k + 1 : Nat) : ℤ)]⟩,
            ⟨.final_position, [((k + 1 : Nat) : ℤ)]⟩])
          (by omega) (by rw [hlen2]; omega)
          (by
            intro j h1 h2 h3
            rw [g3 j (by omega) (by omega),
              g3 ((j - 1) / 2) (by omega) (by omega)]
            exact hheap j h1 (by omega))
      have hub2 : ∀ m, m < k + 1 → isDesc 0 m = true →
          orel o ((swapList arr 0 (k + 1)).getD m 0)
            (arr.getD 0 0) := by
        intro m hm _
        by_cases hm0 : m = 0
        · rw [hm0, g1]
          exact hroot (k + 1) (by omega)
        · rw [g3 m (by omega) (by omega)]
          exact hroot m (by omega)
      rw [extractLoop]
      obtain ⟨rlen, rperm, rsort⟩ :=
        ihk (heapify o (k + 1) 0 (swapList arr 0 (k + 1))
            (anims ++ [⟨.swap, [(0 : ℤ), ((k + 1 : Nat) : ℤ)]⟩,
              ⟨.final_position, [((k + 1 : Nat) : ℤ)]⟩])).1
          (heapify o (k + 1) 0 (swapList arr 0 (k + 1))
            (anims ++ [⟨.swap, [(0 : ℤ), ((k + 1 : Nat) : ℤ)]⟩,
              ⟨.final_position, [((k + 1 : Nat) : ℤ)]⟩])).2
          (by rw [elen, hlen2]; omega)
          (fun j h1 h2 => eheap j h1 h2 (Nat.zero_le _))
          (by
            intro p q hp hpq hq
            rw [elen, hlen2] at hq
            rw [eframe p (Or.inr hp), eframe q (Or.inr (by omega))]
            by_cases hpk : p = k + 1
            · rw [hpk, g2, g3 q (by omega) (by omega)]
              exact hdom 0 q (by omega) (by omega) hq
            · rw [g3 p (by omega) (by omega),
                g3 q (by omega) (by omega)]
              exact hsuf p q (by omega) hpq hq)
          (by
            intro p q hp hq hqlen
            rw [elen, hlen2] at hqlen
            have hpb := eub (arr.getD 0 0) hub2 p hp (isDesc_zero p)
            rw [eframe q (Or.inr hq)]
            by_cases hqk : q = k + 1
            · rw [hqk, g2]
              exact hpb
            · rw [g3 q (by omega) (by omega)]
              exact orel_trans hpb
                (hdom 0 q (by omega) (by omega) hqlen))
      refine ⟨by rw [rlen, elen, hlen2], ?_, ?_⟩
      · exact rperm.trans (eperm.trans
          (swapList_perm arr 0 (k + 1) (by omega) (by omega)))
      · intro p q hpq hq
        exact rsort p q hpq (by rw [elen, hlen2]; exact hq)

theorem heapSort_finalArray (array : List ℤ) (o : SortOrder) :
    (heapSort array o).finalArray = canonicalSort o array := by
  cases array with
  | nil => rfl
  | cons x t =>
      obtain ⟨blen, bperm, bheap⟩ :=
        buildLoop_spec o (x :: t).length ((x :: t).length / 2)
          (x :: t) [] rfl
          (by intro j h1 h2 h3; exfalso; omega)
      obtain ⟨elen, eperm, esort⟩ :=
        extractLoop_spec o ((x :: t).length - 1)
          (buildLoop o (x :: t).length ((x :: t).length / 2)
            (x :: t) []).1
          (buildLoop o (x :: t).length ((x :: t).length / 2)
            (x :: t) []).2
          (by rw [blen]; simp only [List.length_cons]; omega)
          (by intro j h1 h2; exact bheap j h1 (by omega))
          (by
            intro p q hp hpq hq
            rw [blen] at hq
            exfalso
            omega)
          (by
            intro p q hp hq hqlen
            rw [blen] at hqlen
            exfalso
            omega)
      rw [heapSort]
      simp only []
      refine eq_canonicalSort_of_sorted_of_perm (eperm.trans bperm) ?_
      refine sorted_of_getD_pairs o _ ?_
      intro p q hpq hq
      rw [elen] at hq
      exact esort p q hpq hq

/-- C1: for every element sequence of 2 to 50 numbers and both order
flags, each of the six sorting trace generators (bubble, selection,
insertion, quick, merge, heap) returns a final artifact equal to the
canonical sort of the input under that order. -/
theorem all_six_sorts_final_artifact_canonical (l : List ℤ)
    (o : SortOrder) (_hlo : 2 ≤ l.length) (_hhi : l.length ≤ 50) :
    (bubbleSort l o).finalArray = canonicalSort o l ∧
    (selectionSort l o).finalArray = canonicalSort o l ∧
    (insertionSort l o).finalArray = canonicalSort o l ∧
    (quickSort l o).finalArray = canonicalSort o l ∧
    (mergeSort l o).finalArray = canonicalSort o l ∧
    (heapSort l o).finalArray = canonicalSort o l :=
  ⟨bubbleSort_finalArray l o, selectionSort_finalArray l o,
    insertionSort_finalArray l o, quickSort_finalArray l o,
    mergeSort_finalArray l o, heapSort_finalArray l o⟩

theorem all_six_sorts_final_artifact_canonical_witness :
    2 ≤ ([5, 2, 4, 6, 1, 3] : List ℤ).length ∧
    ([5, 2, 4, 6, 1, 3] : List ℤ).length ≤ 50 ∧
    ((bubbleSort [5, 2, 4, 6, 1, 3] .ascending).finalArray =
        canonicalSort .ascending [5, 2, 4, 6, 1, 3] ∧
      (selectionSort [5, 2, 4, 6, 1, 3] .ascending).finalArray =
        canonicalSort .ascending [5, 2, 4, 6, 1, 3] ∧
      (insertionSort [5, 2, 4, 6, 1, 3] .ascending).finalArray =
        canonicalSort .ascending [5, 2, 4, 6, 1, 3] ∧
      (quickSort [5, 2, 4, 6, 1, 3] .ascending).finalArray =
        canonicalSort .ascending [5, 2, 4, 6, 1, 3] ∧
      (mergeSort [5, 2, 4, 6, 1, 3] .ascending).finalArray =
        canonicalSort .ascending [5, 2, 4, 6, 1, 3] ∧
      (heapSort [5, 2, 4, 6, 1, 3] .ascending).finalArray =
        canonicalSort .ascending [5, 2, 4, 6, 1, 3]) :=
  ⟨by decide, by decide,
    all_six_sorts_final_artifact_canonical [5, 2, 4, 6, 1, 3]
      .ascending (by decide) (by decide)⟩

/-- Tagged variant of the merge step of `mergeSort`: elements carry an
inert identity tag (`.2`) and are compared on their value (`.1`) exactly
as the code compares `arr[j]` with `arr[i]` (`shouldSwap(arr[j], arr[i])`
takes the left element only when the right one is strictly out of order,
so a tie takes the right element).  Trace generation is elided. -/
def mergeLoopT (o : SortOrder) :
    List (ℤ × ℕ) → List (ℤ × ℕ) → List (ℤ × ℕ)
  | [], ys => ys
  | x :: xs, [] => x :: xs
  | x :: xs, y :: ys =>
      if shouldSwap o y.1 x.1 then x :: mergeLoopT o xs (y :: ys)
      else y :: mergeLoopT o (x :: xs) ys
termination_by xs ys => xs.length + ys.length

/-- Tagged variant of `mergeSort`'s recursion (`m = l + (r - l) / 2`,
left window `[l..m]`), final array only. -/
def mergeSortT (o : SortOrder) (l : List (ℤ × ℕ)) : List (ℤ × ℕ) :=
  if _h : l.length ≤ 1 then l
  else
    mergeLoopT o (mergeSortT o (l.take ((l.length - 1) / 2 + 1)))
      (mergeSortT o (l.drop ((l.length - 1) / 2 + 1)))
termination_by l.length
decreasing_by
  · simp only [List.length_take]
    omega
  · simp only [List.length_drop]
    omega

/-- Tagged variant of `insertionSort`'s shift loop: `shouldShift` is
strict, so the scan stops at an equal element. -/
def insInnerT (o : SortOrder) (key : ℤ × ℕ) :
    Nat → List (ℤ × ℕ) → List (ℤ × ℕ) × Nat
  | 0, arr => (arr, 0)
  | j + 1, arr =>
      if shouldSwap o (arr.getD j (0, 0)).1 key.1 then
        insInnerT o key j (arr.set (j + 1) (arr.getD j (0, 0)))
      else (arr, j + 1)

def insOuterT (o : SortOrder) :
    Nat → Nat → List (ℤ × ℕ) → List (ℤ × ℕ)
  | 0, _, arr => arr
  | rem + 1, i, arr =>
      let key := arr.getD i (0, 0)
      let r := insInnerT o key i arr
      insOuterT o rem (i + 1) (r.1.set r.2 key)

def insertionSortT (o : SortOrder) (array : List (ℤ × ℕ)) :
    List (ℤ × ℕ) :=
  insOuterT o (array.length - 1) 1 array

/-- C4: claimed stability of merge sort and insertion sort on
equal-valued duplicates.  The claim fails for merge sort: on the
two-element input `[5, 5]` (tags 0 and 1 recording original positions)
the merge step's tie goes to the right half, so the final artifact
reverses the relative order of the two equal elements, while insertion
sort preserves it. -/
theorem mergeSort_unstable_insertionSort_stable_on_equal_pair :
    mergeSortT .ascending [((5 : ℤ), 0), ((5 : ℤ), 1)] =
      [((5 : ℤ), 1), ((5 : ℤ), 0)] ∧
    insertionSortT .ascending [((5 : ℤ), 0), ((5 : ℤ), 1)] =
      [((5 : ℤ), 0), ((5 : ℤ), 1)] := by
  constructor
  · rw [mergeSortT]
    rw [dif_neg (by decide)]
    have h1 : mergeSortT .ascending [((5 : ℤ), 0)] = [((5 : ℤ), 0)] := by
      rw [mergeSortT]
      simp
    have h2 : mergeSortT .ascending [((5 : ℤ), 1)] = [((5 : ℤ), 1)] := by
      rw [mergeSortT]
      simp
    norm_num [h1, h2, mergeLoopT, shouldSwap]
  · rfl

/-- The adjacent-pair scan of `isArraySorted`: returns `false` at the
first pair with `array[i-1]` out of order relative to `array[i]`. -/
def sortedScan (o : SortOrder) : List ℤ → Bool
  | a :: b :: t => if shouldSwap o a b then false else sortedScan o (b :: t)
  | _ => true

def isArraySorted (array : List ℤ) (o : SortOrder) : Bool :=
  if array.length ≤ 1 then true else sortedScan o array

inductive SortAlgo
  | bubbleSort
  | selectionSort
  | insertionSort
  | quickSort
  | mergeSort
  | heapSort
deriving DecidableEq, Repr

def runAlgorithm (alg : SortAlgo) (array : List ℤ) (o : SortOrder) :
    SortResult :=
  match alg with
  | .bubbleSort => bubbleSort array o
  | .selectionSort => selectionSort array o
  | .insertionSort => insertionSort array o
  | .quickSort => quickSort array o
  | .mergeSort => mergeSort array o
  | .heapSort => heapSort array o

/-- The sorting view's state touched by `handleSort`: the loaded array,
the animation cursor, the `isSorting` flag and the stored trace. -/
structure SortUIState where
  array : List ℤ
  currentAnimationIndex : Nat
  isSorting : Bool
  animations : List SStep
deriving DecidableEq, Repr

/-- `handleSort`: empty array and already-sorted array return early with
a message and no state change; otherwise the state is reset and the
selected algorithm's trace is stored. -/
def handleSort (s : SortUIState) (alg : SortAlgo) (o : SortOrder) :
    SortUIState × Option String :=
  if s.array.length = 0 then (s, some "Please load an array first!")
  else if isArraySorted s.array o then
    (s, some "Array is already sorted!")
  else
    ({ array := s.array, currentAnimationIndex := 0, isSorting := true,
       animations := (runAlgorithm alg s.array o).animations },
      none)

/-- C10: if the loaded array is already sorted under the selected order,
the Sort operation notifies the user and leaves the whole state (array,
animation index, `isSorting` flag, stored trace) unchanged, generating
no trace. -/
theorem handleSort_sorted_array_no_state_change (s : SortUIState)
    (alg : SortAlgo) (o : SortOrder) (hne : s.array ≠ [])
    (hsorted : isArraySorted s.array o = true) :
    handleSort s alg o = (s, some "Array is already sorted!") := by
  rw [handleSort, if_neg (by simpa using hne), if_pos hsorted]

theorem handleSort_sorted_array_no_state_change_witness :
    (([1, 2, 3] : List ℤ) ≠ [] ∧
      isArraySorted [1, 2, 3] .ascending = true) ∧
    handleSort ⟨[1, 2, 3], 0, false, []⟩ .bubbleSort .ascending =
      (⟨[1, 2, 3], 0, false, []⟩, some "Array is already sorted!") :=
  ⟨⟨by decide, by decide⟩,
    handleSort_sorted_array_no_state_change
      ⟨[1, 2, 3], 0, false, []⟩ .bubbleSort .ascending
      (by decide) (by decide)⟩

/-- A comma-separated build token.  `Number(token)` in JS converts the
empty (or all-whitespace) token to `0` and a non-numeric token to `NaN`;
`jsNum` models this with `none` for `NaN`. -/
inductive Token
  | num (v : ℤ)
  | empty
  | invalid
deriving DecidableEq, Repr

def jsNum : Token → Option ℤ
  | .num v => some v
  | .empty => some 0
  | .invalid => none

/-- A singly linked list as built by the linked-list view (the doubly
variant differs only in back links, which `insert` keeps consistent). -/
inductive LList
  | nil
  | node (value : ℤ) (nxt : LList)
deriving DecidableEq, Repr

/-- `insert` walks to the tail and appends the new node. -/
def insertList (head : LList) (value : ℤ) : LList :=
  match head with
  | .nil => .node value .nil
  | .node v nxt => .node v (insertList nxt value)

def LList.toValues : LList → List ℤ
  | .nil => []
  | .node v nxt => v :: nxt.toValues

/-- `buildList`: split tokens are converted with `Number`, the build is
rejected iff some converted value is `NaN`, and the accepted values are
inserted in order. -/
def buildList (toks : List Token) : Option LList :=
  if (toks.map jsNum).any (fun v => v.isNone) then none
  else some (((toks.map jsNum).map (fun v => v.getD 0)).foldl
    insertList .nil)

inductive BSTree
  | leaf
  | node (value : ℤ) (left : BSTree) (right : BSTree)
deriving DecidableEq, Repr

/-- BST `insert`: smaller values go left, equal and larger go right. -/
def treeInsert (root : BSTree) (value : ℤ) : BSTree :=
  match root with
  | .leaf => .node value .leaf .leaf
  | .node v l r =>
      if value < v then .node v (treeInsert l value) r
      else .node v l (treeInsert r value)

def buildTree (toks : List Token) : Option BSTree :=
  if (toks.map jsNum).any (fun v => v.isNone) then none
  else some (((toks.map jsNum).map (fun v => v.getD 0)).foldl
    treeInsert .leaf)

theorem toValues_insertList (h : LList) (v : ℤ) :
    (insertList h v).toValues = h.toValues ++ [v] := by
  induction h with
  | nil => rfl
  | node w nxt ih => simp [insertList, LList.toValues, ih]

theorem toValues_foldl (vs : List ℤ) :
    ∀ h : LList, (vs.foldl insertList h).toValues = h.toValues ++ vs := by
  induction vs with
  | nil => intro h; simp
  | cons v vs ih =>
      intro h
      simp [List.foldl_cons, ih, toValues_insertList]

/-- C9: a build input whose tokens are all numeric or empty is accepted
by the linked-list and tree builders — an empty token does not fail
validation; instead `Number` turns it into the value `0`, so a node with
value `0` is created for every empty token. -/
theorem builders_accept_empty_tokens_as_zero (toks : List Token)
    (hvalid : ∀ t ∈ toks, t ≠ Token.invalid) :
    (∃ L, buildList toks = some L ∧
      L.toValues = toks.map (fun t =>
        match t with
        | .num v => v
        | .empty => 0
        | .invalid => 0)) ∧
    buildTree toks = some ((toks.map (fun t =>
        match t with
        | .num v => v
        | .empty => 0
        | .invalid => 0)).foldl treeInsert .leaf) := by
  have hnone : ((toks.map jsNum).any (fun v => v.isNone)) = false := by
    rw [List.any_eq_false]
    intro v hv
    rw [List.mem_map] at hv
    obtain ⟨t, ht, rfl⟩ := hv
    cases t with
    | num w => simp [jsNum]
    | empty => simp [jsNum]
    | invalid => exact absurd rfl (hvalid _ ht)
  have hmap : (toks.map jsNum).map (fun v => v.getD 0) =
      toks.map (fun t =>
        match t with
        | .num v => v
        | .empty => 0
        | .invalid => 0) := by
    rw [List.map_map]
    refine List.map_congr_left ?_
    intro t ht
    cases t with
    | num w => rfl
    | empty => rfl
    | invalid => exact absurd rfl (hvalid _ ht)
  constructor
  · refine ⟨((toks.map jsNum).map (fun v => v.getD 0)).foldl
      insertList .nil, ?_, ?_⟩
    · rw [buildList, hnone]
      simp
    · rw [toValues_foldl, hmap]
      rfl
  · rw [buildTree, hnone]
    simp [hmap]

theorem builders_accept_empty_tokens_as_zero_witness :
    (∀ t ∈ [Token.num 10, Token.empty, Token.num 20],
      t ≠ Token.invalid) ∧
    ((∃ L, buildList [Token.num 10, Token.empty, Token.num 20] =
        some L ∧
      L.toValues = [Token.num 10, Token.empty, Token.num 20].map
        (fun t =>
          match t with
          | .num v => v
          | .empty => 0
          | .invalid => 0)) ∧
    buildTree [Token.num 10, Token.empty, Token.num 20] =
      some (([Token.num 10, Token.empty, Token.num 20].map (fun t =>
          match t with
          | .num v => v
          | .empty => 0
          | .invalid => 0)).foldl treeInsert .leaf)) :=
  ⟨by decide,
    builders_accept_empty_tokens_as_zero
      [Token.num 10, Token.empty, Token.num 20] (by decide)⟩

/-- A node of the (doubly) linked list: value, forward link, backward
link.  Nodes live in an arena (`List DNode`) indexed by allocation
order, modelling JS object identity under mutation. -/
structure DNode where
  value : ℤ
  nxt : Option Nat
  prv : Option Nat
deriving DecidableEq, Repr

structure DList where
  nodes : List DNode
  head : Option Nat
deriving DecidableEq, Repr

/-- The `while (current.next !== null)` walk of `insert`, with fuel. -/
def tailIdx (nodes : List DNode) : Nat → Nat → Nat
  | 0, c => c
  | fuel + 1, c =>
      match (nodes.getD c ⟨0, none, none⟩).nxt with
      | none => c
      | some n => tailIdx nodes fuel n

/-- `insert` for the doubly list: append a fresh node at the tail and
wire `current.next` and `newNode.prev`. -/
def dInsert (l : DList) (value : ℤ) : DList :=
  match l.head with
  | none => ⟨l.nodes ++ [⟨value, none, none⟩], some l.nodes.length⟩
  | some h =>
      let t := tailIdx l.nodes l.nodes.length h
      ⟨(l.nodes.set t
          { l.nodes.getD t ⟨0, none, none⟩ with
              nxt := some l.nodes.length }) ++
        [⟨value, none, some t⟩], l.head⟩

/-- The `while (current.next !== null && current.next.value !== value)`
walk of `deleteNode`, with fuel. -/
def walkBefore (nodes : List DNode) (value : ℤ) : Nat → Nat → Nat
  | 0, c => c
  | fuel + 1, c =>
      match (nodes.getD c ⟨0, none, none⟩).nxt with
      | none => c
      | some n =>
          if (nodes.getD n ⟨0, none, none⟩).value = value then c
          else walkBefore nodes value fuel n

/-- `deleteNode` for the doubly list: empty list returns unchanged; a
matching head makes `head.next` the new head and clears its `prev`;
otherwise the walk relinks around the first match (fixing the `prev` of
the node after it) or leaves the list unchanged when there is none.  The
deleted node stays in the arena, as on the JS heap. -/
def dDelete (l : DList) (value : ℤ) : DList :=
  match l.head with
  | none => l
  | some h =>
      if (l.nodes.getD h ⟨0, none, none⟩).value = value then
        match (l.nodes.getD h ⟨0, none, none⟩).nxt with
        | none => ⟨l.nodes, none⟩
        | some nh =>
            ⟨l.nodes.set nh
              { l.nodes.getD nh ⟨0, none, none⟩ with prv := none },
              some nh⟩
      else
        let c := walkBefore l.nodes value l.nodes.length h
        match (l.nodes.getD c ⟨0, none, none⟩).nxt with
        | none => l
        | some nx =>
            if (l.nodes.getD nx ⟨0, none, none⟩).value = value then
              let nodes2 :=
                match (l.nodes.getD nx ⟨0, none, none⟩).nxt with
                | some nxx =>
                    l.nodes.set nxx
                      { l.nodes.getD nxx ⟨0, none, none⟩ with
                          prv := some c }
                | none => l.nodes
              ⟨nodes2.set c
                { nodes2.getD c ⟨0, none, none⟩ with
                    nxt := (l.nodes.getD nx ⟨0, none, none⟩).nxt },
                l.head⟩
            else l

/-- Forward traversal of the list from the head, with fuel. -/
def dTraverse (nodes : List DNode) : Nat → Option Nat → List ℤ
  | 0, _ => []
  | _ + 1, none => []
  | fuel + 1, some c =>
      (nodes.getD c ⟨0, none, none⟩).value ::
        dTraverse nodes fuel (nodes.getD c ⟨0, none, none⟩).nxt

/-- C8: deleting the head value `10` of the doubly linked list built
from `[10, 20, 30]` yields the node holding `20` as new head with an
empty backward link, and the remainder of the list (`[20, 30]`, its
nodes and links) is unchanged. -/
theorem doubly_delete_head_frame :
    (dDelete (([10, 20, 30] : List ℤ).foldl dInsert ⟨[], none⟩)
        10).head = some 1 ∧
    (((dDelete (([10, 20, 30] : List ℤ).foldl dInsert ⟨[], none⟩)
        10).nodes.getD 1 ⟨0, none, none⟩).value = 20 ∧
      ((dDelete (([10, 20, 30] : List ℤ).foldl dInsert ⟨[], none⟩)
        10).nodes.getD 1 ⟨0, none, none⟩).prv = none) ∧
    dTraverse
      (dDelete (([10, 20, 30] : List ℤ).foldl dInsert ⟨[], none⟩)
        10).nodes
      (dDelete (([10, 20, 30] : List ℤ).foldl dInsert ⟨[], none⟩)
        10).nodes.length
      (dDelete (([10, 20, 30] : List ℤ).foldl dInsert ⟨[], none⟩)
        10).head = [20, 30] ∧
    ((dDelete (([10, 20, 30] : List ℤ).foldl dInsert ⟨[], none⟩)
        10).nodes.getD 1 ⟨0, none, none⟩).nxt =
      (((([10, 20, 30] : List ℤ).foldl dInsert
        ⟨[], none⟩).nodes.getD 1 ⟨0, none, none⟩)).nxt ∧
    (dDelete (([10, 20, 30] : List ℤ).foldl dInsert ⟨[], none⟩)
        10).nodes.getD 2 ⟨0, none, none⟩ =
      (([10, 20, 30] : List ℤ).foldl dInsert
        ⟨[], none⟩).nodes.getD 2 ⟨0, none, none⟩ := by
  decide

/-- Event kinds of the searching visualizer's traces. -/
inductive BKind
  | compare_range
  | compare
  | found
  | adjust_range
  | not_found
deriving DecidableEq, Repr

structure BStep where
  kind : BKind
  indices : List ℤ
deriving DecidableEq, Repr

/-- The `while (low <= high)` loop of `binarySearch`
(`mid = Math.floor((low + high) / 2)`; integer division on ℤ here is
Euclidean and agrees with `Math.floor` for the nonnegative values that
occur). -/
def binarySearchLoop (arr : List ℤ) (target : ℤ) (low high : ℤ)
    (anims : List BStep) : List BStep :=
  if _h : low ≤ high then
    let mid := (low + high) / 2
    if arr.getD mid.toNat 0 = target then
      anims ++ [⟨.compare_range, [low, high]⟩, ⟨.compare, [mid]⟩,
        ⟨.found, [mid]⟩]
    else if arr.getD mid.toNat 0 < target then
      binarySearchLoop arr target (mid + 1) high
        (anims ++ [⟨.compare_range, [low, high]⟩, ⟨.compare, [mid]⟩,
          ⟨.adjust_range, [mid, mid + 1]⟩])
    else
      binarySearchLoop arr target low (mid - 1)
        (anims ++ [⟨.compare_range, [low, high]⟩, ⟨.compare, [mid]⟩,
          ⟨.adjust_range, [mid, mid - 1]⟩])
  else anims ++ [⟨.not_found, []⟩]
termination_by (high + 1 - low).toNat
decreasing_by
  · omega
  · omega

def binarySearch (array : List ℤ) (target : ℤ) : List BStep :=
  binarySearchLoop array target 0 ((array.length : ℤ) - 1) []

/-- A comparison or range event of the binary-search trace
(`compare_range`, `compare`, `adjust_range`). -/
def isRangeEvent (s : BStep) : Bool :=
  match s.kind with
  | .compare_range => true
  | .compare => true
  | .adjust_range => true
  | _ => false

/-- A midpoint comparison event (`compare`). -/
def isMidCompare (s : BStep) : Bool :=
  match s.kind with
  | .compare => true
  | _ => false

theorem midCompare_count_adjust (A : List BStep) (a b c d : ℤ) :
    ((A ++ ([⟨.compare_range, [a, b]⟩, ⟨.compare, [c]⟩,
      ⟨.adjust_range, [c, d]⟩] : List BStep)).filter
        isMidCompare).length =
    (A.filter isMidCompare).length + 1 := by
  simp [isMidCompare]

theorem midCompare_count_found (A : List BStep) (a b c : ℤ) :
    ((A ++ ([⟨.compare_range, [a, b]⟩, ⟨.compare, [c]⟩,
      ⟨.found, [c]⟩] : List BStep)).filter isMidCompare).length =
    (A.filter isMidCompare).length + 1 := by
  simp [isMidCompare]

theorem midCompare_count_not_found (A : List BStep) :
    ((A ++ ([⟨.not_found, []⟩] : List BStep)).filter
        isMidCompare).length =
    (A.filter isMidCompare).length := by
  simp [isMidCompare]

/-- Each loop iteration emits one midpoint `compare` event and at least
halves the window, so a window of at most `2 ^ k` elements yields at
most `k + 1` midpoint comparisons. -/
theorem binarySearchLoop_compare_count (arr : List ℤ) (target : ℤ) :
    ∀ (k : Nat) (low high : ℤ) (anims : List BStep),
      (high + 1 - low).toNat ≤ 2 ^ k →
      ((binarySearchLoop arr target low high anims).filter
          isMidCompare).length ≤
        (anims.filter isMidCompare).length + k + 1 := by
  intro k
  induction k with
  | zero =>
      intro low high anims hw
      simp only [pow_zero] at hw
      rw [binarySearchLoop]
      by_cases h : low ≤ high
      · rw [dif_pos h]
        simp only []
        have hwin : high = low := by omega
        split_ifs with hfound hlt
        · rw [midCompare_count_found]
        · rw [show (low + high) / 2 + 1 = high + 1 from by omega]
          rw [binarySearchLoop, dif_neg (by omega)]
          rw [midCompare_count_not_found, midCompare_count_adjust]
        · rw [show (low + high) / 2 - 1 = low - 1 from by omega]
          rw [binarySearchLoop, dif_neg (by omega)]
          rw [midCompare_count_not_found, midCompare_count_adjust]
      · rw [dif_neg h]
        rw [midCompare_count_not_found]
        omega
  | succ k ih =>
      intro low high anims hw
      rw [binarySearchLoop]
      by_cases h : low ≤ high
      · rw [dif_pos h]
        simp only []
        have hpow : (2 : ℕ) ^ (k + 1) = 2 ^ k + 2 ^ k := by ring
        rw [hpow] at hw
        split_ifs with hfound hlt
        · rw [midCompare_count_found]
          omega
        · have hrec := ih ((low + high) / 2 + 1) high
            (anims ++ [⟨.compare_range, [low, high]⟩,
              ⟨.compare, [(low + high) / 2]⟩,
              ⟨.adjust_range, [(low + high) / 2,
                (low + high) / 2 + 1]⟩])
            (by omega)
          rw [midCompare_count_adjust] at hrec
          omega
        · have hrec := ih low ((low + high) / 2 - 1)
            (anims ++ [⟨.compare_range, [low, high]⟩,
              ⟨.compare, [(low + high) / 2]⟩,
              ⟨.adjust_range, [(low + high) / 2,
                (low + high) / 2 - 1]⟩])
            (by omega)
          rw [midCompare_count_adjust] at hrec
          omega
      · rw [dif_neg h]
        rw [midCompare_count_not_found]
        omega

/-- C5 counterexample: on the already-sorted ascending array `[1, 2]`
(n = 2, so ⌈log2 n⌉ + 2 = 3) with target `3`, the binary search trace
holds 6 comparison/range events (`compare_range`, `compare`,
`adjust_range`), exceeding the claimed bound. -/
theorem binarySearch_range_events_exceed_claim :
    List.Sorted (· ≤ ·) ([1, 2] : List ℤ) ∧
    ((binarySearch [1, 2] 3).filter isRangeEvent).length = 6 ∧
    Nat.clog 2 ([1, 2] : List ℤ).length + 2 = 3 := by
  refine ⟨by decide, ?_, ?_⟩
  · have h2 : ∀ A : List BStep, binarySearchLoop [1, 2] 3 2 1 A =
        A ++ [⟨.not_found, []⟩] := by
      intro A
      rw [binarySearchLoop]
      norm_num
    have h1 : ∀ A : List BStep, binarySearchLoop [1, 2] 3 1 1 A =
        (A ++ [⟨.compare_range, [1, 1]⟩, ⟨.compare, [1]⟩,
          ⟨.adjust_range, [1, 2]⟩]) ++ [⟨.not_found, []⟩] := by
      intro A
      rw [binarySearchLoop]
      norm_num [h2]
    have h0 : binarySearch [1, 2] 3 =
        (([] ++ [⟨.compare_range, [0, 1]⟩, ⟨.compare, [0]⟩,
          ⟨.adjust_range, [0, 1]⟩]) ++ [⟨.compare_range, [1, 1]⟩,
          ⟨.compare, [1]⟩, ⟨.adjust_range, [1, 2]⟩]) ++
          [⟨.not_found, []⟩] := by
      rw [binarySearch, binarySearchLoop]
      norm_num [h1]
    rw [h0]
    rfl
  · norm_num [Nat.clog]

/-- C5 (amended): for every already-sorted ascending array of length n
and every target, the binary search trace holds at most
⌈log2 n⌉ + 2 midpoint comparison events (the `compare` events of the
loop); the original count over all comparison/range events fails, since
each iteration also emits `compare_range` and `adjust_range` events. -/
theorem binarySearch_mid_compare_bound (arr : List ℤ) (target : ℤ)
    (_hsorted : List.Sorted (· ≤ ·) arr) :
    ((binarySearch arr target).filter isMidCompare).length ≤
      Nat.clog 2 arr.length + 2 := by
  have hb := binarySearchLoop_compare_count arr target
    (Nat.clog 2 arr.length) 0 ((arr.length : ℤ) - 1) []
    (by
      have hle : arr.length ≤ 2 ^ Nat.clog 2 arr.length :=
        Nat.le_pow_clog (by norm_num) _
      omega)
  rw [binarySearch]
  simp only [List.filter_nil, List.length_nil] at hb
  omega

theorem binarySearch_mid_compare_bound_witness :
    List.Sorted (· ≤ ·) ([1, 2] : List ℤ) ∧
    ((binarySearch [1, 2] 5).filter isMidCompare).length ≤
      Nat.clog 2 ([1, 2] : List ℤ).length + 2 :=
  ⟨by decide, binarySearch_mid_compare_bound [1, 2] 5 (by decide)⟩

/-- Insertion-ordered map, modelling a JS `Map`: `set` updates in place
or appends, `get` returns the first (unique) binding. -/
def mapGet {α : Type} : List (String × α) → String → Option α
  | [], _ => none
  | (k, v) :: m, key => if k = key then some v else mapGet m key

def mapSet {α : Type} : List (String × α) → String → α →
    List (String × α)
  | [], key, v => [(key, v)]
  | (k, w) :: m, key, v =>
      if k = key then (k, v) :: m else (k, w) :: mapSet m key v

/-- One edge of `buildAdjacencyList`: both endpoints get an entry and
each other's name appended to their neighbor list. -/
def addEdge (adj : List (String × List String)) (uv : String × String) :
    List (String × List String) :=
  let a1 := if (mapGet adj uv.1).isSome then adj else mapSet adj uv.1 []
  let a2 := if (mapGet a1 uv.2).isSome then a1 else mapSet a1 uv.2 []
  let a3 := mapSet a2 uv.1 ((mapGet a2 uv.1).getD [] ++ [uv.2])
  mapSet a3 uv.2 ((mapGet a3 uv.2).getD [] ++ [uv.1])

/-- One weight entry: keyed `u-v` and `v-u`. -/
def addWeight (m : List (String × ℤ)) (w : String × String × ℤ) :
    List (String × ℤ) :=
  mapSet (mapSet m (w.1 ++ "-" ++ w.2.1) w.2.2)
    (w.2.1 ++ "-" ++ w.1) w.2.2

def buildAdjacencyList (edges : List (String × String))
    (weights : List (String × String × ℤ)) :
    List (String × List String) × List (String × ℤ) :=
  (edges.foldl addEdge [], weights.foldl addWeight [])

/-- Events of the graph visualizer's weighted-search traces. -/
inductive GStep
  | start_dijkstra (node : String)
  | visit_dijkstra (node : String)
  | update_distance (node : String) (newDistance : WithTop ℤ)
  | start_a_star (node : String)
  | visit_a_star (node : String)
  | update_a_star (node : String)
  | found_path (node : String)
  | final_path (path : List String)
  | complete
deriving Repr

structure GraphRunResult where
  animations : List GStep
  path : List String
  distances : List (String × WithTop ℤ)

/-- The priority queue of the external `priorityqueuejs` library under
the comparator `(a, b) => b.distance - a.distance`: dequeue returns an
entry of minimal priority.  This model takes the earliest-enqueued entry
among minimal ones; all runs verified below are tie-free at every
dequeue, where every minimum-taking strategy dequeues identically. -/
def extractFirstMin :
    List (String × WithTop ℤ) →
    Option ((String × WithTop ℤ) × List (String × WithTop ℤ))
  | [] => none
  | p :: ps =>
      match extractFirstMin ps with
      | none => some (p, [])
      | some (q, rest) =>
          if p.2 ≤ q.2 then some (p, ps) else some (q, p :: rest)

/-- The relaxation loop `for (const v of adjList.get(u))` of `dijkstra`.
A missing weight makes the JS sum `NaN`, which fails the `<` test, so
the entry is skipped. -/
def dijkstraRelax (edgeWeights : List (String × ℤ)) (u : String) :
    List String →
    (List (String × WithTop ℤ) × List (String × String) ×
      List (String × WithTop ℤ) × List GStep) →
    (List (String × WithTop ℤ) × List (String × String) ×
      List (String × WithTop ℤ) × List GStep)
  | [], st => st
  | v :: vs, (distances, previous, pq, anims) =>
      match mapGet edgeWeights (u ++ "-" ++ v) with
      | none => dijkstraRelax edgeWeights u vs
          (distances, previous, pq, anims)
      | some w =>
          let newDistance := (mapGet distances u).getD ⊤ +
            ((w : ℤ) : WithTop ℤ)
          if newDistance < (mapGet distances v).getD ⊤ then
            dijkstraRelax edgeWeights u vs
              (mapSet distances v newDistance, mapSet previous v u,
                pq ++ [(v, newDistance)],
                anims ++ [.update_distance v newDistance])
          else dijkstraRelax edgeWeights u vs
            (distances, previous, pq, anims)

/-- The `while (!pq.isEmpty())` loop of `dijkstra`, with an iteration
budget ample for the runs verified here.  A dequeued entry whose
priority is worse than the recorded best is discarded
(`if (distance > distances.get(u)) continue`) before any visit event or
relaxation. -/
def dijkstraLoop (adjList : List (String × List String))
    (edgeWeights : List (String × ℤ)) (endNode : String) :
    Nat → List (String × WithTop ℤ) → List (String × String) →
    List (String × WithTop ℤ) → List GStep →
    List (String × WithTop ℤ) × List (String × String) × List GStep
  | 0, distances, previous, _, anims => (distances, previous, anims)
  | fuel + 1, distances, previous, pq, anims =>
      match extractFirstMin pq with
      | none => (distances, previous, anims)
      | some ((u, distance), pq2) =>
          if (mapGet distances u).getD ⊤ < distance then
            dijkstraLoop adjList edgeWeights endNode fuel
              distances previous pq2 anims
          else
            if u = endNode then
              (distances, previous, anims ++ [.visit_dijkstra u])
            else
              let st := dijkstraRelax edgeWeights u
                ((mapGet adjList u).getD [])
                (distances, previous, pq2,
                  anims ++ [.visit_dijkstra u])
              dijkstraLoop adjList edgeWeights endNode fuel
                st.1 st.2.1 st.2.2.1 st.2.2.2

/-- The `while (current)` path reconstruction: unshift the current node
and follow `previous`; the empty string is falsy and stops the loop. -/
def walkPath (previous : List (String × String)) :
    Nat → String → List String → List String
  | 0, _, acc => acc
  | fuel + 1, current, acc =>
      if current = "" then acc
      else
        match mapGet previous current with
        | none => current :: acc
        | some p => walkPath previous fuel p (current :: acc)

def dijkstra (adjList : List (String × List String))
    (edgeWeights : List (String × ℤ)) (startNode endNode : String) :
    GraphRunResult :=
  let distances0 := mapSet
    (adjList.map fun p => (p.1, (⊤ : WithTop ℤ))) startNode 0
  let fuel := (adjList.length + 1) * (adjList.length + 1)
  let r := dijkstraLoop adjList edgeWeights endNode fuel distances0 []
    [(startNode, (0 : WithTop ℤ))] [.start_dijkstra startNode]
  let path := walkPath r.2.1 (r.2.1.length + 1) endNode []
  ⟨r.2.2 ++ [.final_path path, .complete], path, r.1⟩

/-- The relaxation loop of `aStar`. -/
def aStarRelax (edgeWeights : List (String × ℤ))
    (heuristic : String → String → ℤ) (endNode u : String) :
    List String →
    (List (String × WithTop ℤ) × List (String × WithTop ℤ) ×
      List (String × String) × List (String × WithTop ℤ) ×
      List GStep) →
    (List (String × WithTop ℤ) × List (String × WithTop ℤ) ×
      List (String × String) × List (String × WithTop ℤ) ×
      List GStep)
  | [], st => st
  | v :: vs, (g, f, prev, pq, anims) =>
      match mapGet edgeWeights (u ++ "-" ++ v) with
      | none => aStarRelax edgeWeights heuristic endNode u vs
          (g, f, prev, pq, anims)
      | some w =>
          let tg := (mapGet g u).getD ⊤ + ((w : ℤ) : WithTop ℤ)
          if tg < (mapGet g v).getD ⊤ then
            let fv := tg + ((heuristic v endNode : ℤ) : WithTop ℤ)
            aStarRelax edgeWeights heuristic endNode u vs
              (mapSet g v tg, mapSet f v fv, mapSet prev v u,
                pq ++ [(v, fv)], anims ++ [.update_a_star v])
          else aStarRelax edgeWeights heuristic endNode u vs
            (g, f, prev, pq, anims)

/-- The `while (!pq.isEmpty())` loop of `aStar`.  The end-node test runs
directly on the dequeued entry, before any staleness consideration (the
code has no stale check) and before the visit event. -/
def aStarLoop (adjList : List (String × List String))
    (edgeWeights : List (String × ℤ)) (endNode : String)
    (heuristic : String → String → ℤ) :
    Nat → List (String × WithTop ℤ) → List (String × WithTop ℤ) →
    List (String × String) → List (String × WithTop ℤ) → List GStep →
    List GStep × List String × List (String × WithTop ℤ)
  | 0, g, _, _, _, anims => (anims, [], g)
  | fuel + 1, g, f, prev, pq, anims =>
      match extractFirstMin pq with
      | none => (anims ++ [.complete], [], g)
      | some ((u, _), pq2) =>
          if u = endNode then
            let path := walkPath prev (prev.length + 1) endNode []
            (anims ++ [.found_path u, .final_path path, .complete],
              path, g)
          else
            let st := aStarRelax edgeWeights heuristic endNode u
              ((mapGet adjList u).getD [])
              (g, f, prev, pq2, anims ++ [.visit_a_star u])
            aStarLoop adjList edgeWeights endNode heuristic fuel
              st.1 st.2.1 st.2.2.1 st.2.2.2.1 st.2.2.2.2

def aStar (adjList : List (String × List String))
    (edgeWeights : List (String × ℤ)) (startNode endNode : String)
    (heuristic : String → String → ℤ) : GraphRunResult :=
  let g0 := mapSet (adjList.map fun p => (p.1, (⊤ : WithTop ℤ)))
    startNode 0
  let f0 := mapSet (adjList.map fun p => (p.1, (⊤ : WithTop ℤ)))
    startNode ((heuristic startNode endNode : ℤ) : WithTop ℤ)
  let fuel := (adjList.length + 1) * (adjList.length + 1)
  let r := aStarLoop adjList edgeWeights endNode heuristic fuel g0 f0 []
    [(startNode, (mapGet f0 startNode).getD ⊤)]
    [.start_a_star startNode]
  ⟨r.1, r.2.1, r.2.2⟩

/-- The total weight computed by `runAnimationStep` on a `final_path`
event: the sum of the stored weights of consecutive pairs (`none` when
a pair has no weight, where JS would produce `NaN`). -/
def totalWeightOfPath (edgeWeights : List (String × ℤ)) :
    List String → Option ℤ
  | a :: b :: rest =>
      (mapGet edgeWeights (a ++ "-" ++ b)).bind fun w =>
        (totalWeightOfPath edgeWeights (b :: rest)).map (w + ·)
  | _ => some 0

/-- Midpoint `visit_dijkstra` events naming `node`. -/
def countVisitD (node : String) (anims : List GStep) : Nat :=
  (anims.filter fun s =>
    match s with
    | .visit_dijkstra n => n == node
    | _ => false).length

/-- `visit_a_star` events naming `node`. -/
def countVisitA (node : String) (anims : List GStep) : Nat :=
  (anims.filter fun s =>
    match s with
    | .visit_a_star n => n == node
    | _ => false).length

/-- C7: on the default graph `A-B, A-C, B-D, C-E` with weights
`A-B:5, A-C:2, B-D:4, C-E:8`, Dijkstra from `A` to `D` yields the final
path `[A, B, D]`, whose total weight as summed by `runAnimationStep` is
9. -/
theorem dijkstra_default_graph_path_and_weight :
    (dijkstra
        (buildAdjacencyList
          [("A", "B"), ("A", "C"), ("B", "D"), ("C", "E")]
          [("A", "B", 5), ("A", "C", 2), ("B", "D", 4),
            ("C", "E", 8)]).1
        (buildAdjacencyList
          [("A", "B"), ("A", "C"), ("B", "D"), ("C", "E")]
          [("A", "B", 5), ("A", "C", 2), ("B", "D", 4),
            ("C", "E", 8)]).2
        "A" "D").path = ["A", "B", "D"] ∧
    totalWeightOfPath
      (buildAdjacencyList
        [("A", "B"), ("A", "C"), ("B", "D"), ("C", "E")]
        [("A", "B", 5), ("A", "C", 2), ("B", "D", 4),
          ("C", "E", 8)]).2
      (dijkstra
        (buildAdjacencyList
          [("A", "B"), ("A", "C"), ("B", "D"), ("C", "E")]
          [("A", "B", 5), ("A", "C", 2), ("B", "D", 4),
            ("C", "E", 8)]).1
        (buildAdjacencyList
          [("A", "B"), ("A", "C"), ("B", "D"), ("C", "E")]
          [("A", "B", 5), ("A", "C", 2), ("B", "D", 4),
            ("C", "E", 8)]).2
        "A" "D").path = some 9 :=
  ⟨rfl, rfl⟩

/-- C2: on the graph `A-B, C-D` the end node `C` is unreachable from
`A`; Dijkstra's path reconstruction returns the bogus single-node list
`[C]` and A* returns the empty path — neither raises any error, and no
`PathNotFound` notion exists in the code. -/
theorem pathfinding_unreachable_returns_no_error :
    (dijkstra
        (buildAdjacencyList [("A", "B"), ("C", "D")]
          [("A", "B", 1), ("C", "D", 1)]).1
        (buildAdjacencyList [("A", "B"), ("C", "D")]
          [("A", "B", 1), ("C", "D", 1)]).2
        "A" "C").path = ["C"] ∧
    (aStar
        (buildAdjacencyList [("A", "B"), ("C", "D")]
          [("A", "B", 1), ("C", "D", 1)]).1
        (buildAdjacencyList [("A", "B"), ("C", "D")]
          [("A", "B", 1), ("C", "D", 1)]).2
        "A" "C" (fun _ _ => 0)).path = [] :=
  ⟨rfl, rfl⟩

/-- C3 counterexample: on the graph `A-B:10, A-C:1, C-B:1, B-D:10`
(zero heuristic, start `A`, end `D`) node `B` is enqueued twice; A* has
no stale check, so it emits a `visit_a_star` event for `B` twice —
revisiting the stale entry — while Dijkstra's stale check leaves exactly
one `visit_dijkstra` event for `B`. -/
theorem aStar_revisits_stale_entry :
    countVisitA "B"
      (aStar
        (buildAdjacencyList
          [("A", "B"), ("A", "C"), ("C", "B"), ("B", "D")]
          [("A", "B", 10), ("A", "C", 1), ("C", "B", 1),
            ("B", "D", 10)]).1
        (buildAdjacencyList
          [("A", "B"), ("A", "C"), ("C", "B"), ("B", "D")]
          [("A", "B", 10), ("A", "C", 1), ("C", "B", 1),
            ("B", "D", 10)]).2
        "A" "D" (fun _ _ => 0)).animations = 2 ∧
    countVisitD "B"
      (dijkstra
        (buildAdjacencyList
          [("A", "B"), ("A", "C"), ("C", "B"), ("B", "D")]
          [("A", "B", 10), ("A", "C", 1), ("C", "B", 1),
            ("B", "D", 10)]).1
        (buildAdjacencyList
          [("A", "B"), ("A", "C"), ("C", "B"), ("B", "D")]
          [("A", "B", 10), ("A", "C", 1), ("C", "B", 1),
            ("B", "D", 10)]).2
        "A" "D").animations = 1 :=
  ⟨rfl, rfl⟩

/-- C3 (amended): in Dijkstra, a dequeued entry whose priority is worse
than the best currently-known distance of its node is discarded: the
loop continues with the rest of the queue, emitting no visit event and
relaxing nothing.  (A* performs no such check — see the
counterexample.) -/
theorem dijkstraLoop_discards_stale_entry
    (adjList : List (String × List String))
    (edgeWeights : List (String × ℤ)) (endNode : String) (fuel : Nat)
    (distances : List (String × WithTop ℤ))
    (previous : List (String × String))
    (pq pq2 : List (String × WithTop ℤ)) (anims : List GStep)
    (u : String) (d : WithTop ℤ)
    (hmin : extractFirstMin pq = some ((u, d), pq2))
    (hstale : (mapGet distances u).getD ⊤ < d) :
    dijkstraLoop adjList edgeWeights endNode (fuel + 1) distances
        previous pq anims =
      dijkstraLoop adjList edgeWeights endNode fuel distances previous
        pq2 anims := by
  rw [dijkstraLoop, hmin]
  simp only []
  rw [if_pos hstale]

theorem dijkstraLoop_discards_stale_entry_witness :
    (extractFirstMin [("B", (10 : WithTop ℤ)), ("D", 12)] =
        some (("B", (10 : WithTop ℤ)),
          [("D", (12 : WithTop ℤ))]) ∧
      (mapGet [("A", (0 : WithTop ℤ)), ("B", 2), ("C", 1), ("D", 12)]
          "B").getD ⊤ < (10 : WithTop ℤ)) ∧
    dijkstraLoop
        (buildAdjacencyList
          [("A", "B"), ("A", "C"), ("C", "B"), ("B", "D")]
          [("A", "B", 10), ("A", "C", 1), ("C", "B", 1),
            ("B", "D", 10)]).1
        (buildAdjacencyList
          [("A", "B"), ("A", "C"), ("C", "B"), ("B", "D")]
          [("A", "B", 10), ("A", "C", 1), ("C", "B", 1),
            ("B", "D", 10)]).2
        "D" (3 + 1)
        [("A", (0 : WithTop ℤ)), ("B", 2), ("C", 1), ("D", 12)]
        [("B", "A"), ("C", "A"), ("D", "B")]
        [("B", (10 : WithTop ℤ)), ("D", 12)] [] =
      dijkstraLoop
        (buildAdjacencyList
          [("A", "B"), ("A", "C"), ("C", "B"), ("B", "D")]
          [("A", "B", 10), ("A", "C", 1), ("C", "B", 1),
            ("B", "D", 10)]).1
        (buildAdjacencyList
          [("A", "B"), ("A", "C"), ("C", "B"), ("B", "D")]
          [("A", "B", 10), ("A", "C", 1), ("C", "B", 1),
            ("B", "D", 10)]).2
        "D" 3
        [("A", (0 : WithTop ℤ)), ("B", 2), ("C", 1), ("D", 12)]
        [("B", "A"), ("C", "A"), ("D", "B")]
        [("D", (12 : WithTop ℤ))] [] :=
  ⟨⟨rfl, by decide⟩,
    dijkstraLoop_discards_stale_entry _ _ "D" 3 _ _ _ _ [] "B" 10
      rfl (by decide)⟩
